import Mathlib

/-!
Verification of the `http_parse` crate (`src/lib.rs`): a minimal HTTP/1.1
request model.  Rust `String`s are modelled as `List Char`; Rust's
`str::split`, `str::lines`, `str::contains` and `to_lowercase` are modelled
by executable functions below; every method of `Header`, `Query`, `Method`
and `Request` that the claims touch is translated field by field.
-/

set_option maxHeartbeats 1000000

namespace HP

/-- Text, modelling Rust `String` / `&str` as a list of characters. -/
abbrev Str : Type := List Char

/-- Conversion from Lean string literals into the text model. -/
def str (s : String) : Str := s.data

/-- The single-space separator used by `line.split(" ")`. -/
def strSP : Str := [' ']

/-- The `"?"` separator used by `string.split("?")`. -/
def strQM : Str := ['?']

/-- The `"&"` separator used by `query_string.split("&")`. -/
def strAMP : Str := ['&']

/-- The `"="` separator used by `query.split("=")`. -/
def strEQ : Str := ['=']

/-- The `": "` separator used by `line.split(": ")`. -/
def strColonSP : Str := [':', ' ']

/-- The `"\r\n"` separator used by `join("\r\n")` and the builder. -/
def strCRLF : Str := ['\r', '\n']

/-- Worker for `splitOn`, structurally recursive on a fuel argument so
that the kernel can evaluate it; the fuel never runs out when it starts
at the length of the text (see `splitOnGo_fuel`). -/
def splitOnGo (sep : Str) : Nat → Str → List Str
  | _, [] => [[]]
  | 0, s => [s]
  | fuel + 1, c :: rest =>
    if sep ≠ [] ∧ sep.isPrefixOf (c :: rest) then
      [] :: splitOnGo sep fuel (rest.drop (sep.length - 1))
    else
      match splitOnGo sep fuel rest with
      | [] => [[c]]
      | p :: ps => (c :: p) :: ps

/-- Model of Rust `str::split(sep)` for a non-empty separator: greedy
leftmost matching, keeping empty pieces, always at least one piece. -/
def splitOn (sep s : Str) : List Str := splitOnGo sep s.length s

/-- Model of Rust `str::contains(pat)`: substring test. -/
def containsSub (pat : Str) : Str → Bool
  | [] => pat.isEmpty
  | c :: rest => pat.isPrefixOf (c :: rest) || containsSub pat rest

/-- Model of Rust `[String]::join(sep)`. -/
def joinSep (sep : Str) : List Str → Str
  | [] => []
  | [p] => p
  | p :: q :: ps => p ++ sep ++ joinSep sep (q :: ps)

/-- Strip one trailing carriage return, as Rust `lines()` does to every
line segment that was terminated by a `\n`. -/
def stripCR (s : Str) : Str :=
  match s.reverse with
  | c :: t => if c = '\r' then t.reverse else s
  | [] => s

/-- Post-processing of the `\n`-separated segments for `rustLines`:
every segment that was followed by a `\n` loses one trailing `\r`; the
final segment is kept verbatim unless it is empty (a trailing line
terminator produces no extra line). -/
def rustLinesAux : List Str → List Str
  | [] => []
  | [seg] => if seg = [] then [] else [seg]
  | seg :: seg2 :: segs => stripCR seg :: rustLinesAux (seg2 :: segs)

/-- Model of Rust `str::lines()`: split at `\n`, strip one `\r` before
each `\n`, no final empty line for a trailing terminator. -/
def rustLines (s : Str) : List Str := rustLinesAux (splitOn ['\n'] s)

/-- Model of Rust `str::to_lowercase` (ASCII range, which is all the
case-insensitive header comparisons in the source exercise). -/
def toLowerStr (s : Str) : Str := s.map Char.toLower

/-- `Header` struct of the source: one name/value text pair. -/
structure Header where
  name : Str
  value : Str
deriving DecidableEq

/-- `Query` struct of the source: one query-parameter name/value pair. -/
structure Query where
  name : Str
  value : Str
deriving DecidableEq

/-- `Method` enum of the source: the nine HTTP verbs. -/
inductive Method where
  | GET | POST | PUT | DELETE | HEAD | OPTIONS | CONNECT | TRACE | PATCH
deriving DecidableEq

/-- `impl fmt::Display for Method`: canonical uppercase token. -/
def Method.toStr : Method → Str
  | .GET => str "GET"
  | .POST => str "POST"
  | .PUT => str "PUT"
  | .DELETE => str "DELETE"
  | .HEAD => str "HEAD"
  | .OPTIONS => str "OPTIONS"
  | .CONNECT => str "CONNECT"
  | .TRACE => str "TRACE"
  | .PATCH => str "PATCH"

/-- `Request` struct of the source. -/
structure Request where
  headers : List Header
  query : List Query
  body : Str
  method : Method
  full_path : Str
  path : Str
  initialized : Bool
  version : Str
deriving DecidableEq

/-- `Request::new`. -/
def Request.new : Request :=
  { headers := [], query := [], body := [], method := .GET,
    full_path := [], path := [], initialized := false,
    version := str "HTTP/1.1" }

/-- `Request::set_body`. -/
def set_body (r : Request) (body : Str) : Request :=
  { r with initialized := true, body := body }

/-- `Request::set_version`. -/
def set_version (r : Request) (version : Str) : Request :=
  { r with initialized := true, version := version }

/-- `Request::set_method`. -/
def set_method (r : Request) (method : Method) : Request :=
  { r with initialized := true, method := method }

/-- `Request::set_full_path`. -/
def set_full_path (r : Request) (full_path : Str) : Request :=
  { r with initialized := true, full_path := full_path }

/-- `Request::set_path`. -/
def set_path (r : Request) (path : Str) : Request :=
  { r with initialized := true, path := path }

/-- `Request::find_header`: case-insensitive scan for the first match. -/
def find_header (r : Request) (name : Str) : Option Header :=
  r.headers.find? (fun h => decide (toLowerStr h.name = toLowerStr name))

/-- The in-place value update performed by `Request::set_header` when a
case-insensitive match exists (`iter_mut().find(..).set_value(..)`). -/
def setHeaderValueInPlace (name value : Str) : List Header → List Header
  | [] => []
  | h :: t =>
    if toLowerStr h.name = toLowerStr name then { h with value := value } :: t
    else h :: setHeaderValueInPlace name value t

/-- `Request::set_header`. -/
def set_header (r : Request) (header_name header_value : Str) : Request :=
  if r.headers.any (fun h => decide (toLowerStr h.name = toLowerStr header_name)) then
    { r with initialized := true,
             headers := setHeaderValueInPlace header_name header_value r.headers }
  else
    { r with initialized := true,
             headers := r.headers ++ [Header.mk header_name header_value] }

/-- `Request::add_header`. -/
def add_header (r : Request) (header_name header_value : Str) : Request :=
  if r.headers.any (fun h => decide (toLowerStr h.name = toLowerStr header_name)) then
    set_header r header_name header_value
  else
    { r with initialized := true,
             headers := r.headers ++ [Header.mk header_name header_value] }

/-- `Request::find_query`: case-sensitive scan for the first match. -/
def find_query (r : Request) (name : Str) : Option Query :=
  r.query.find? (fun q => decide (q.name = name))

/-- The in-place value update performed by `Request::set_query` when an
exact-name match exists. -/
def setQueryValueInPlace (name value : Str) : List Query → List Query
  | [] => []
  | q :: t =>
    if q.name = name then { q with value := value } :: t
    else q :: setQueryValueInPlace name value t

/-- `Request::set_query`. -/
def set_query (r : Request) (query_name query_value : Str) : Request :=
  if r.query.any (fun q => decide (q.name = query_name)) then
    { r with initialized := true,
             query := setQueryValueInPlace query_name query_value r.query }
  else
    { r with initialized := true,
             query := r.query ++ [Query.mk query_name query_value] }

/-- `Request::add_query`. -/
def add_query (r : Request) (query_name query_value : Str) : Request :=
  if r.query.any (fun q => decide (q.name = query_name)) then
    set_query r query_name query_value
  else
    { r with initialized := true,
             query := r.query ++ [Query.mk query_name query_value] }

/-- `Request::content_type`: exact (case-sensitive) lookup of the fixed
lowercase key `"content-type"`. -/
def content_type (r : Request) : Option Str :=
  match r.headers.find? (fun h => decide (h.name = str "content-type")) with
  | some h => some h.value
  | none => none

/-- `Request::content_length`: exact (case-sensitive) lookup of the fixed
lowercase key `"content-length"`. -/
def content_length (r : Request) : Option Str :=
  match r.headers.find? (fun h => decide (h.name = str "content-length")) with
  | some h => some h.value
  | none => none

/-- The `for query in &self.query` loop of `Request::build`: append each
pair to the accumulated target, with `&` once the target already
contains a `?` and `?` otherwise. -/
def buildQueryFold (qs : List Query) (np : Str) : Str :=
  match qs with
  | [] => np
  | q :: rest =>
    buildQueryFold rest
      (np ++ (if containsSub strQM np then strAMP else strQM) ++ q.name ++ strEQ ++ q.value)

/-- The `"{}: {}"` rendering of one header line in `Request::build`. -/
def headerLineStr (h : Header) : Str := h.name ++ strColonSP ++ h.value

/-- `Request::build`. -/
def build (r : Request) : Str :=
  joinSep strCRLF
      ((r.method.toStr ++ strSP ++ buildQueryFold r.query r.path ++ strSP ++ r.version)
        :: r.headers.map headerLineStr)
    ++ strCRLF ++ strCRLF ++ r.body

/-- The `match parts[0]` of `Request::parse_method_line`: exact match
against the nine canonical tokens. -/
def methodFromStr (s : Str) : Option Method :=
  if s = str "GET" then some .GET
  else if s = str "POST" then some .POST
  else if s = str "PUT" then some .PUT
  else if s = str "DELETE" then some .DELETE
  else if s = str "HEAD" then some .HEAD
  else if s = str "OPTIONS" then some .OPTIONS
  else if s = str "CONNECT" then some .CONNECT
  else if s = str "TRACE" then some .TRACE
  else if s = str "PATCH" then some .PATCH
  else none

/-- `Request::parse_query_string`. -/
def parse_query_string (r : Request) (string : Str) : Request :=
  if (splitOn strQM string).length = 2 then
    { r with path := (splitOn strQM string).getD 0 [],
             query := r.query ++
               (splitOn strAMP ((splitOn strQM string).getD 1 [])).filterMap (fun q =>
                 if (splitOn strEQ q).length = 2 then
                   some (Query.mk ((splitOn strEQ q).getD 0 []) ((splitOn strEQ q).getD 1 []))
                 else none) }
  else { r with path := (splitOn strQM string).getD 0 [] }

/-- `Request::parse_method_line`. -/
def parse_method_line (r : Request) (line : Str) : Request :=
  if (splitOn strSP line).length ≠ 3 then r
  else
    match methodFromStr ((splitOn strSP line).getD 0 []) with
    | none => r
    | some m =>
      parse_query_string
        { r with method := m, full_path := (splitOn strSP line).getD 1 [] }
        ((splitOn strSP line).getD 1 [])

/-- `Request::parse_header_line`. -/
def parse_header_line (r : Request) (line : Str) : Request :=
  if (splitOn strColonSP line).length ≠ 2 then r
  else if r.headers.any
      (fun h => decide (toLowerStr h.name = toLowerStr ((splitOn strColonSP line).getD 0 []))) then r
  else
    { r with headers := r.headers ++
        [Header.mk ((splitOn strColonSP line).getD 0 []) ((splitOn strColonSP line).getD 1 [])] }

/-- The loop over the lines after line 0 in `Request::parse_request`,
threading the request, the collected `body_lines` and the `read_body`
flag. -/
def parseLoop : List Str → Request → List Str → Bool → Request × List Str
  | [], r, bl, _ => (r, bl)
  | line :: rest, r, bl, rb =>
    if line = [] then
      parseLoop rest r bl (if r.method = .POST ∨ r.method = .PUT then true else rb)
    else if rb then
      parseLoop rest r (bl ++ [line]) rb
    else
      parseLoop rest (if containsSub strColonSP line then parse_header_line r line else r) bl rb

/-- `Request::parse_request`. -/
def parse_request (r : Request) (request : Str) : Request :=
  match rustLines request with
  | [] => { r with body := [], initialized := true }
  | first :: rest =>
    { (parseLoop rest (parse_method_line r first) [] false).1 with
      body := joinSep strCRLF (parseLoop rest (parse_method_line r first) [] false).2,
      initialized := true }

/-- `Request::parse_from_str`. -/
def parse_from_str (r : Request) (request : Str) : Request :=
  parse_request r request

/-- Parsing a raw text into a fresh request. -/
def parsed (s : Str) : Request := parse_from_str Request.new s

/-- Rebuilding a parsed request and parsing the result again. -/
def reparsed (s : Str) : Request := parse_from_str Request.new (build (parsed s))

/-- The body lines that the parse loop collects from the given lines,
starting from a fixed method and `read_body` flag: a blank line turns
the flag on when the method is POST or PUT, a non-blank line is
collected exactly when the flag is on, and blank lines are never
collected. -/
def collectedBody (m : Method) : Bool → List Str → List Str
  | _, [] => []
  | rb, l :: rest =>
    if l = [] then collectedBody m (if m = .POST ∨ m = .PUT then true else rb) rest
    else if rb then l :: collectedBody m rb rest
    else collectedBody m rb rest

/-- The lines strictly after the first blank line (the body section of
the input when the method carries a body). -/
def dropThroughBlank : List Str → List Str
  | [] => []
  | l :: rest => if l = [] then rest else dropThroughBlank rest

/-- The `name=value` rendering of one query pair as `Request::build`
appends it to the target. -/
def queryPairStr (q : Query) : Str := q.name ++ strEQ ++ q.value

/-- The requests reachable from `Request::new` by any sequence of
`parse_from_str`, `set_header` and `add_header` calls. -/
inductive ReachableHSA : Request → Prop where
  | new : ReachableHSA Request.new
  | parse (r : Request) (s : Str) : ReachableHSA r → ReachableHSA (parse_from_str r s)
  | set (r : Request) (n v : Str) : ReachableHSA r → ReachableHSA (set_header r n v)
  | add (r : Request) (n v : Str) : ReachableHSA r → ReachableHSA (add_header r n v)

/-- The requests reachable from `Request::new` by any sequence of parse
and mutator calls of the source. -/
inductive ReachableAll : Request → Prop where
  | new : ReachableAll Request.new
  | parse (r : Request) (s : Str) : ReachableAll r → ReachableAll (parse_from_str r s)
  | sbody (r : Request) (b : Str) : ReachableAll r → ReachableAll (set_body r b)
  | sversion (r : Request) (v : Str) : ReachableAll r → ReachableAll (set_version r v)
  | smethod (r : Request) (m : Method) : ReachableAll r → ReachableAll (set_method r m)
  | sfull (r : Request) (p : Str) : ReachableAll r → ReachableAll (set_full_path r p)
  | spath (r : Request) (p : Str) : ReachableAll r → ReachableAll (set_path r p)
  | sheader (r : Request) (n v : Str) : ReachableAll r → ReachableAll (set_header r n v)
  | aheader (r : Request) (n v : Str) : ReachableAll r → ReachableAll (add_header r n v)
  | squery (r : Request) (n v : Str) : ReachableAll r → ReachableAll (set_query r n v)
  | aquery (r : Request) (n v : Str) : ReachableAll r → ReachableAll (add_query r n v)

/-- The `name=value` pairs of a query collection, rendered and joined the
way `Request::build` appends them after the first `?`. -/
def queryTargetSuffix (qs : List Query) : Str :=
  match qs with
  | [] => []
  | _ :: _ => strQM ++ joinSep strAMP (qs.map queryPairStr)

/-- Characters that can never occur in a path produced by the parser:
the target token contains no space and no newline, and the path stops at
the first `?`. -/
def cleanPath (p : Str) : Prop := ' ' ∉ p ∧ '?' ∉ p ∧ '\n' ∉ p

/-- Characters that can never occur in a query name or value produced by
the parser. -/
def cleanQuery (q : Query) : Prop :=
  (' ' ∉ q.name ∧ '?' ∉ q.name ∧ '&' ∉ q.name ∧ '=' ∉ q.name ∧ '\n' ∉ q.name) ∧
  (' ' ∉ q.value ∧ '?' ∉ q.value ∧ '&' ∉ q.value ∧ '=' ∉ q.value ∧ '\n' ∉ q.value)

/-- Shape facts about a header produced by the parser: the name and the
value come from a two-piece `": "` split of a single line. -/
def cleanHeader (h : Header) : Prop :=
  containsSub strColonSP h.name = false ∧ containsSub strColonSP h.value = false ∧
  '\n' ∉ h.name ∧ '\n' ∉ h.value

example : rustLines (str "a\r\nb") = [str "a", str "b"] := by decide

example : rustLines (str "a\r\n\r\n") = [str "a", []] := by decide

example : splitOn strSP (str "GET / HTTP/1.1") = [str "GET", str "/", str "HTTP/1.1"] := by decide

/-- The `test_parse_from_str` unit test of the source. -/
example :
    (parsed (str "GET / HTTP/1.1\r\nHost: localhost\r\n\r\n")).headers =
      [Header.mk (str "Host") (str "localhost")] ∧
    (parsed (str "GET / HTTP/1.1\r\nHost: localhost\r\n\r\n")).query = [] ∧
    (parsed (str "GET / HTTP/1.1\r\nHost: localhost\r\n\r\n")).body = [] ∧
    (parsed (str "GET / HTTP/1.1\r\nHost: localhost\r\n\r\n")).method = .GET ∧
    (parsed (str "GET / HTTP/1.1\r\nHost: localhost\r\n\r\n")).path = str "/" := by
  decide

/-- The `test_parse_from_str_with_query` unit test of the source. -/
example :
    (parsed (str "GET /?name=value&test=test2 HTTP/1.1\r\nHost: localhost\r\n\r\n")).query =
      [Query.mk (str "name") (str "value"), Query.mk (str "test") (str "test2")] ∧
    (parsed (str "GET /?name=value&test=test2 HTTP/1.1\r\nHost: localhost\r\n\r\n")).path =
      str "/" := by
  decide

/-- The `test_build` unit test of the source. -/
example :
    build (set_body (set_query (add_query (add_query (set_header
        (add_header (add_header (set_path (set_method Request.new .POST) (str "/"))
          (str "Host") (str "localhost")) (str "Host") (str "localhost2"))
        (str "Content-Type") (str "plain")) (str "name") (str "value"))
        (str "name") (str "value2")) (str "name2") (str "value")) (str "body")) =
      str "POST /?name=value2&name2=value HTTP/1.1\r\nHost: localhost2\r\nContent-Type: plain\r\n\r\nbody" := by
  decide

theorem splitOnGo_succ (sep : Str) (fuel : Nat) (c : Char) (rest : Str) :
    splitOnGo sep (fuel + 1) (c :: rest) =
      if sep ≠ [] ∧ sep.isPrefixOf (c :: rest) then
        [] :: splitOnGo sep fuel (rest.drop (sep.length - 1))
      else
        match splitOnGo sep fuel rest with
        | [] => [[c]]
        | p :: ps => (c :: p) :: ps := rfl

theorem splitOnGo_fuel (sep : Str) :
    ∀ (f1 : Nat) (s : Str) (f2 : Nat), s.length ≤ f1 → s.length ≤ f2 →
      splitOnGo sep f1 s = splitOnGo sep f2 s := by
  intro f1
  induction f1 with
  | zero =>
    intro s f2 h1 _
    have hs : s = [] := List.eq_nil_of_length_eq_zero (Nat.le_zero.mp h1)
    subst hs
    cases f2 <;> rfl
  | succ n ih =>
    intro s f2 h1 h2
    cases s with
    | nil => cases f2 <;> rfl
    | cons c rest =>
      cases f2 with
      | zero => simp at h2
      | succ m =>
        have hr1 : rest.length ≤ n := by simpa using h1
        have hr2 : rest.length ≤ m := by simpa using h2
        rw [splitOnGo_succ, splitOnGo_succ]
        by_cases h : sep ≠ [] ∧ sep.isPrefixOf (c :: rest)
        · rw [if_pos h, if_pos h,
            ih (rest.drop (sep.length - 1)) m
              (le_trans (by rw [List.length_drop]; omega) hr1)
              (le_trans (by rw [List.length_drop]; omega) hr2)]
        · rw [if_neg h, if_neg h, ih rest m hr1 hr2]

theorem splitOn_nil (sep : Str) : splitOn sep [] = [[]] := rfl

theorem splitOn_cons (sep : Str) (c : Char) (rest : Str) :
    splitOn sep (c :: rest) =
      if sep ≠ [] ∧ sep.isPrefixOf (c :: rest) then
        [] :: splitOn sep (rest.drop (sep.length - 1))
      else
        match splitOn sep rest with
        | [] => [[c]]
        | p :: ps => (c :: p) :: ps := by
  show splitOnGo sep (c :: rest).length (c :: rest) = _
  rw [List.length_cons, splitOnGo_succ]
  by_cases h : sep ≠ [] ∧ sep.isPrefixOf (c :: rest)
  · rw [if_pos h, if_pos h,
      splitOnGo_fuel sep rest.length (rest.drop (sep.length - 1)) (rest.drop (sep.length - 1)).length
        (by rw [List.length_drop]; omega) (le_refl _)]
    rfl
  · rw [if_neg h, if_neg h]
    rfl

theorem splitOn_ne_nil (sep s : Str) : splitOn sep s ≠ [] := by
  cases s with
  | nil => simp [splitOn_nil]
  | cons c rest =>
    rw [splitOn_cons]
    split
    · simp
    · split <;> simp

theorem splitOn_cons_pos (sep : Str) (c : Char) (rest : Str)
    (h1 : sep ≠ []) (h2 : sep.isPrefixOf (c :: rest) = true) :
    splitOn sep (c :: rest) = [] :: splitOn sep (rest.drop (sep.length - 1)) := by
  rw [splitOn_cons, if_pos ⟨h1, h2⟩]

theorem splitOn_cons_neg (sep : Str) (c : Char) (rest : Str)
    (h : ¬(sep ≠ [] ∧ sep.isPrefixOf (c :: rest) = true)) :
    ∃ p ps, splitOn sep rest = p :: ps ∧ splitOn sep (c :: rest) = (c :: p) :: ps := by
  obtain ⟨p, ps, hps⟩ : ∃ p ps, splitOn sep rest = p :: ps := by
    cases h' : splitOn sep rest with
    | nil => exact absurd h' (splitOn_ne_nil sep rest)
    | cons p ps => exact ⟨p, ps, rfl⟩
  refine ⟨p, ps, hps, ?_⟩
  rw [splitOn_cons, if_neg h, hps]

theorem isPrefixOf_single (c' c : Char) (rest : Str) :
    [c'].isPrefixOf (c :: rest) = (c' == c) := by
  simp [List.isPrefixOf]

theorem splitOn_single_cons_eq (c : Char) (rest : Str) :
    splitOn [c] (c :: rest) = [] :: splitOn [c] rest := by
  have h := splitOn_cons_pos [c] c rest (by simp)
    (by rw [isPrefixOf_single]; exact beq_self_eq_true c)
  have h0 : [c].length - 1 = 0 := rfl
  rw [h0, List.drop_zero] at h
  exact h

theorem splitOn_single_cons_ne (c' c : Char) (rest : Str) (h : c' ≠ c) :
    ∃ p ps, splitOn [c] rest = p :: ps ∧ splitOn [c] (c' :: rest) = (c' :: p) :: ps := by
  apply splitOn_cons_neg
  intro hc
  have h2 := hc.2
  rw [isPrefixOf_single] at h2
  have h3 : c = c' := by simpa using h2
  exact h h3.symm

theorem containsSub_cons (pat : Str) (c : Char) (rest : Str) :
    containsSub pat (c :: rest) = (pat.isPrefixOf (c :: rest) || containsSub pat rest) := rfl

theorem containsSub_single (c : Char) (s : Str) :
    containsSub [c] s = true ↔ c ∈ s := by
  induction s with
  | nil => simp [containsSub]
  | cons c' rest ih =>
    rw [containsSub_cons, isPrefixOf_single]
    simp only [Bool.or_eq_true, beq_iff_eq, ih, List.mem_cons]

theorem containsSub_single_false (c : Char) (s : Str) :
    containsSub [c] s = false ↔ c ∉ s := by
  rw [← containsSub_single c s]
  simp

theorem splitOn_not_contains (sep s : Str) (h : containsSub sep s = false) :
    splitOn sep s = [s] := by
  induction s with
  | nil => exact splitOn_nil sep
  | cons c rest ih =>
    rw [containsSub_cons, Bool.or_eq_false_iff] at h
    obtain ⟨hp, hc⟩ := h
    obtain ⟨p, ps, h1, h2⟩ := splitOn_cons_neg sep c rest (by
      intro hand
      simp [hand.2] at hp)
    rw [ih hc] at h1
    injection h1 with e1 e2
    subst e1
    subst e2
    exact h2

theorem splitOn_single_append (c : Char) (a b : Str) (h : c ∉ a) :
    splitOn [c] (a ++ c :: b) = a :: splitOn [c] b := by
  induction a with
  | nil => simpa using splitOn_single_cons_eq c b
  | cons x a' ih =>
    have hx : x ≠ c := fun hh => h (hh ▸ List.mem_cons_self x a')
    have ha' : c ∉ a' := fun hh => h (List.mem_cons_of_mem x hh)
    obtain ⟨p, ps, h1, h2⟩ := splitOn_single_cons_ne x c (a' ++ c :: b) hx
    rw [ih ha'] at h1
    injection h1 with e1 e2
    subst e1
    subst e2
    rw [List.cons_append]
    exact h2

theorem containsSub_nil_pat (s : Str) : containsSub [] s = true := by
  cases s with
  | nil => rfl
  | cons c rest => rw [containsSub_cons]; simp [List.isPrefixOf]

theorem isPrefixOf_extend (pat s t : Str) (h : pat.isPrefixOf s = true) :
    pat.isPrefixOf (s ++ t) = true := by
  rw [List.isPrefixOf_iff_prefix] at h ⊢
  exact h.trans (List.prefix_append s t)

theorem containsSub_append_right (pat s t : Str) (h : containsSub pat t = true) :
    containsSub pat (s ++ t) = true := by
  induction s with
  | nil => simpa using h
  | cons c s' ih => rw [List.cons_append, containsSub_cons, ih]; simp

theorem containsSub_append_left (pat s t : Str) (h : containsSub pat s = true) :
    containsSub pat (s ++ t) = true := by
  induction s with
  | nil =>
    have hp : pat = [] := by simpa [containsSub, List.isEmpty_iff] using h
    subst hp
    exact containsSub_nil_pat t
  | cons c s' ih =>
    rw [containsSub_cons] at h
    rw [Bool.or_eq_true] at h
    rcases h with h1 | h1
    · have h2 := isPrefixOf_extend pat (c :: s') t h1
      rw [List.cons_append] at h2
      rw [List.cons_append, containsSub_cons, h2]
      simp
    · rw [List.cons_append, containsSub_cons, ih h1]
      simp

theorem containsSub_self_append (pat t : Str) (hp : pat ≠ []) :
    containsSub pat (pat ++ t) = true := by
  cases pat with
  | nil => exact absurd rfl hp
  | cons x p' =>
    rw [List.cons_append, containsSub_cons]
    have h : (x :: p').isPrefixOf (x :: (p' ++ t)) = true := by
      rw [List.isPrefixOf_iff_prefix]
      exact ⟨t, by simp⟩
    rw [h]
    simp

theorem containsSub_mid (pat s t : Str) (hp : pat ≠ []) :
    containsSub pat (s ++ pat ++ t) = true := by
  rw [List.append_assoc]
  exact containsSub_append_right _ _ _ (containsSub_self_append _ _ hp)

theorem splitOn_mem_mem (sep : Str) (s : Str) :
    ∀ p ∈ splitOn sep s, ∀ c ∈ p, c ∈ s := by
  suffices H : ∀ (n : Nat) (s : Str), s.length = n → ∀ p ∈ splitOn sep s, ∀ c ∈ p, c ∈ s from
    H s.length s rfl
  intro n
  induction n using Nat.strong_induction_on with
  | _ n ih =>
    intro s hn p hp c hc
    cases s with
    | nil =>
      rw [splitOn_nil] at hp
      simp only [List.mem_singleton] at hp
      subst hp
      simp at hc
    | cons c0 rest =>
      subst hn
      by_cases hb : sep ≠ [] ∧ sep.isPrefixOf (c0 :: rest) = true
      · rw [splitOn_cons_pos sep c0 rest hb.1 hb.2] at hp
        rcases List.mem_cons.mp hp with h1 | h1
        · subst h1; simp at hc
        · have hlen : (rest.drop (sep.length - 1)).length < (c0 :: rest).length := by
            rw [List.length_drop, List.length_cons]
            omega
          have hm := ih _ hlen _ rfl p h1 c hc
          exact List.mem_cons_of_mem c0 (List.mem_of_mem_drop hm)
      · obtain ⟨p0, ps, h1, h2⟩ := splitOn_cons_neg sep c0 rest hb
        have hlen : rest.length < (c0 :: rest).length := by simp
        rw [h2] at hp
        rcases List.mem_cons.mp hp with h3 | h3
        · subst h3
          rcases List.mem_cons.mp hc with h4 | h4
          · subst h4; exact List.mem_cons_self _ _
          · have hmem : p0 ∈ splitOn sep rest := h1 ▸ List.mem_cons_self p0 ps
            exact List.mem_cons_of_mem c0 (ih _ hlen _ rfl p0 hmem c h4)
        · have hmem : p ∈ splitOn sep rest := h1 ▸ List.mem_cons_of_mem p0 h3
          exact List.mem_cons_of_mem c0 (ih _ hlen _ rfl p hmem c hc)

theorem splitOn_headD_prefix (sep : Str) (s : Str) :
    ∃ t, (splitOn sep s).headD [] ++ t = s := by
  suffices H : ∀ (n : Nat) (s : Str), s.length = n → ∃ t, (splitOn sep s).headD [] ++ t = s from
    H s.length s rfl
  intro n
  induction n using Nat.strong_induction_on with
  | _ n ih =>
    intro s hn
    cases s with
    | nil => exact ⟨[], rfl⟩
    | cons c0 rest =>
      subst hn
      by_cases hb : sep ≠ [] ∧ sep.isPrefixOf (c0 :: rest) = true
      · rw [splitOn_cons_pos sep c0 rest hb.1 hb.2]
        exact ⟨c0 :: rest, rfl⟩
      · obtain ⟨p0, ps, h1, h2⟩ := splitOn_cons_neg sep c0 rest hb
        have hlen : rest.length < (c0 :: rest).length := by simp
        obtain ⟨t, ht⟩ := ih _ hlen rest rfl
        rw [h1] at ht
        rw [h2]
        exact ⟨t, by simpa using congrArg (c0 :: ·) ht⟩

theorem splitOn_pieces (sep : Str) (s : Str) (hsep : sep ≠ []) :
    ∀ p ∈ splitOn sep s, containsSub sep p = false := by
  suffices H : ∀ (n : Nat) (s : Str), s.length = n → ∀ p ∈ splitOn sep s, containsSub sep p = false from
    H s.length s rfl
  intro n
  induction n using Nat.strong_induction_on with
  | _ n ih =>
    intro s hn p hp
    cases s with
    | nil =>
      rw [splitOn_nil] at hp
      simp only [List.mem_singleton] at hp
      subst hp
      cases sep with
      | nil => exact absurd rfl hsep
      | cons x p' => rfl
    | cons c0 rest =>
      subst hn
      by_cases hb : sep ≠ [] ∧ sep.isPrefixOf (c0 :: rest) = true
      · rw [splitOn_cons_pos sep c0 rest hb.1 hb.2] at hp
        rcases List.mem_cons.mp hp with h1 | h1
        · subst h1
          cases sep with
          | nil => exact absurd rfl hsep
          | cons x p' => rfl
        · have hlen : (rest.drop (sep.length - 1)).length < (c0 :: rest).length := by
            rw [List.length_drop, List.length_cons]
            omega
          exact ih _ hlen _ rfl p h1
      · obtain ⟨p0, ps, h1, h2⟩ := splitOn_cons_neg sep c0 rest hb
        have hlen : rest.length < (c0 :: rest).length := by simp
        have hnp : sep.isPrefixOf (c0 :: rest) = false := by
          cases hx : sep.isPrefixOf (c0 :: rest) with
          | false => rfl
          | true => exact absurd ⟨hsep, hx⟩ hb
        rw [h2] at hp
        rcases List.mem_cons.mp hp with h3 | h3
        · subst h3
          rw [containsSub_cons]
          have hc0 : containsSub sep p0 = false :=
            ih _ hlen _ rfl p0 (h1 ▸ List.mem_cons_self p0 ps)
          have hpre : sep.isPrefixOf (c0 :: p0) = false := by
            cases hx : sep.isPrefixOf (c0 :: p0) with
            | false => rfl
            | true =>
              obtain ⟨t, ht⟩ := splitOn_headD_prefix sep rest
              rw [h1] at ht
              have hext := isPrefixOf_extend sep (c0 :: p0) t hx
              rw [List.cons_append] at hext
              simp only [List.headD_cons] at ht
              rw [ht] at hext
              rw [hext] at hnp
              simp at hnp
          rw [hpre, hc0]
          rfl
        · exact ih _ hlen _ rfl p (h1 ▸ List.mem_cons_of_mem p0 h3)

theorem joinSep_cons_cons (sep p q : Str) (ps : List Str) :
    joinSep sep (p :: q :: ps) = p ++ sep ++ joinSep sep (q :: ps) := rfl

theorem splitOn_joinSep_single (c : Char) (ps : List Str) (hne : ps ≠ [])
    (hclean : ∀ p ∈ ps, c ∉ p) :
    splitOn [c] (joinSep [c] ps) = ps := by
  induction ps with
  | nil => exact absurd rfl hne
  | cons p ps' ih =>
    cases ps' with
    | nil =>
      show splitOn [c] p = [p]
      exact splitOn_not_contains [c] p ((containsSub_single_false c p).mpr (hclean p (List.mem_singleton.mpr rfl)))
    | cons q ps'' =>
      rw [joinSep_cons_cons]
      have ha : p ++ [c] ++ joinSep [c] (q :: ps'') = p ++ c :: joinSep [c] (q :: ps'') := by
        simp
      rw [ha, splitOn_single_append c p _ (hclean p (List.mem_cons_self p _)),
        ih (by simp) (fun x hx => hclean x (List.mem_cons_of_mem p hx))]

theorem joinSep_head_flatten (sep : Str) (x : Str) (xs : List Str) :
    joinSep sep (x :: xs) = x ++ (xs.map (fun y => sep ++ y)).flatten := by
  induction xs generalizing x with
  | nil => simp [joinSep]
  | cons y xs' ih =>
    rw [joinSep_cons_cons, ih y]
    simp [List.append_assoc]

theorem joinSep_append (sep : Str) (xs ys : List Str) (hx : xs ≠ []) (hy : ys ≠ []) :
    joinSep sep (xs ++ ys) = joinSep sep xs ++ sep ++ joinSep sep ys := by
  induction xs with
  | nil => exact absurd rfl hx
  | cons x xs' ih =>
    cases xs' with
    | nil =>
      cases ys with
      | nil => exact absurd rfl hy
      | cons y ys' => rfl
    | cons x2 xs'' =>
      rw [List.cons_append, List.cons_append, joinSep_cons_cons, joinSep_cons_cons,
        ← List.cons_append, ih (by simp)]
      simp [List.append_assoc]

theorem mem_joinSep (sep : Str) (ps : List Str) (c : Char) (h : c ∈ joinSep sep ps) :
    c ∈ sep ∨ ∃ p ∈ ps, c ∈ p := by
  induction ps with
  | nil => simp [joinSep] at h
  | cons p ps' ih =>
    cases ps' with
    | nil => exact Or.inr ⟨p, List.mem_singleton.mpr rfl, h⟩
    | cons q ps'' =>
      rw [joinSep_cons_cons] at h
      rcases List.mem_append.mp h with h1 | h1
      · rcases List.mem_append.mp h1 with h2 | h2
        · exact Or.inr ⟨p, List.mem_cons_self p _, h2⟩
        · exact Or.inl h2
      · rcases ih h1 with h2 | ⟨x, hx, hc⟩
        · exact Or.inl h2
        · exact Or.inr ⟨x, List.mem_cons_of_mem p hx, hc⟩

theorem stripCR_append_cr (l : Str) : stripCR (l ++ ['\r']) = l := by
  unfold stripCR
  rw [(by simp : (l ++ ['\r']).reverse = '\r' :: l.reverse)]
  simp

theorem mem_stripCR (s : Str) (c : Char) (h : c ∈ stripCR s) : c ∈ s := by
  unfold stripCR at h
  cases hr : s.reverse with
  | nil => rw [hr] at h; exact h
  | cons x t =>
    rw [hr] at h
    have h' : c ∈ (if x = '\r' then t.reverse else s) := h
    by_cases hx : x = '\r'
    · rw [if_pos hx] at h'
      have hmem : c ∈ s.reverse := by
        rw [hr]
        exact List.mem_cons_of_mem x (List.mem_reverse.mp h')
      exact List.mem_reverse.mp hmem
    · rw [if_neg hx] at h'
      exact h'

theorem rustLinesAux_cons (seg : Str) (segs : List Str) (h : segs ≠ []) :
    rustLinesAux (seg :: segs) = stripCR seg :: rustLinesAux segs := by
  cases segs with
  | nil => exact absurd rfl h
  | cons a l => rfl

theorem rustLinesAux_mem (segs : List Str) (hsegs : ∀ p ∈ segs, '\n' ∉ p) :
    ∀ l ∈ rustLinesAux segs, '\n' ∉ l := by
  induction segs with
  | nil => intro l hl; simp [rustLinesAux] at hl
  | cons seg segs' ih =>
    intro l hl
    cases segs' with
    | nil =>
      unfold rustLinesAux at hl
      by_cases hs : seg = []
      · rw [if_pos hs] at hl; simp at hl
      · rw [if_neg hs] at hl
        simp only [List.mem_singleton] at hl
        subst hl
        exact hsegs l (List.mem_singleton.mpr rfl)
    | cons s2 ss =>
      rw [rustLinesAux_cons seg (s2 :: ss) (by simp)] at hl
      rcases List.mem_cons.mp hl with h1 | h1
      · subst h1
        intro hmem
        exact hsegs seg (List.mem_cons_self _ _) (mem_stripCR seg '\n' hmem)
      · exact ih (fun p hp => hsegs p (List.mem_cons_of_mem seg hp)) l h1

theorem rustLines_mem (s : Str) : ∀ l ∈ rustLines s, '\n' ∉ l := by
  apply rustLinesAux_mem
  intro p hp
  exact (containsSub_single_false '\n' p).mp (splitOn_pieces ['\n'] s (by simp) p hp)

theorem rustLines_joinCRLF (ls : List Str) (hne : ls ≠ [])
    (hnl : ∀ l ∈ ls, '\n' ∉ l) :
    rustLines (joinSep strCRLF ls) = if ls.getLast? = some [] then ls.dropLast else ls := by
  induction ls with
  | nil => exact absurd rfl hne
  | cons l ls' ih =>
    cases ls' with
    | nil =>
      show rustLines l = _
      unfold rustLines
      rw [splitOn_not_contains ['\n'] l
        ((containsSub_single_false _ _).mpr (hnl l (List.mem_singleton.mpr rfl)))]
      show (if l = [] then [] else [l]) = _
      by_cases hl : l = []
      · subst hl; simp
      · rw [if_neg hl, if_neg (by simpa using hl)]
    | cons l2 ls'' =>
      have hl : '\n' ∉ l := hnl l (List.mem_cons_self _ _)
      have hjoin : joinSep strCRLF (l :: l2 :: ls'') =
          (l ++ ['\r']) ++ '\n' :: joinSep strCRLF (l2 :: ls'') := by
        rw [joinSep_cons_cons]
        simp [strCRLF, List.append_assoc]
      have hcr : '\n' ∉ l ++ ['\r'] := by
        intro hmem
        rcases List.mem_append.mp hmem with h1 | h1
        · exact hl h1
        · simp at h1
      unfold rustLines
      rw [hjoin, splitOn_single_append '\n' (l ++ ['\r']) _ hcr,
        rustLinesAux_cons _ _ (splitOn_ne_nil _ _), stripCR_append_cr]
      have hih := ih (by simp) (fun x hx => hnl x (List.mem_cons_of_mem l hx))
      unfold rustLines at hih
      rw [hih]
      by_cases hL : (l2 :: ls'').getLast? = some ([] : Str)
      · rw [if_pos hL, if_pos (by rw [List.getLast?_cons_cons]; exact hL)]
        simp [List.dropLast]
      · rw [if_neg hL, if_neg (by rw [List.getLast?_cons_cons]; exact hL)]

theorem splitOn_colonSP_append (n v : Str) (h : containsSub strColonSP n = false) :
    splitOn strColonSP (n ++ strColonSP ++ v) = n :: splitOn strColonSP v := by
  induction n with
  | nil =>
    show splitOn strColonSP (':' :: ' ' :: v) = [] :: splitOn strColonSP v
    rw [splitOn_cons_pos strColonSP ':' (' ' :: v) (by simp [strColonSP])
      (by simp [strColonSP, List.isPrefixOf])]
    rfl
  | cons x n' ih =>
    rw [containsSub_cons, Bool.or_eq_false_iff] at h
    obtain ⟨hp, hc⟩ := h
    have hnp : ¬(strColonSP ≠ [] ∧ strColonSP.isPrefixOf (x :: (n' ++ strColonSP ++ v)) = true) := by
      intro hand
      have hprefix := hand.2
      cases n' with
      | nil =>
        simp only [List.nil_append] at hprefix
        simp [strColonSP, List.isPrefixOf, Bool.and_eq_true, beq_iff_eq] at hprefix
      | cons y n'' =>
        simp only [List.cons_append] at hprefix
        simp [strColonSP, List.isPrefixOf, Bool.and_eq_true, beq_iff_eq] at hprefix
        obtain ⟨hx, hy⟩ := hprefix
        subst hx
        subst hy
        simp [strColonSP, List.isPrefixOf] at hp
    rw [List.cons_append, List.cons_append]
    obtain ⟨p, ps, h1, h2⟩ := splitOn_cons_neg strColonSP x (n' ++ strColonSP ++ v) hnp
    rw [ih hc] at h1
    injection h1 with e1 e2
    subst e1
    subst e2
    exact h2

theorem methodFromStr_toStr (m : Method) : methodFromStr m.toStr = some m := by
  cases m <;> decide

theorem toStr_no_space (m : Method) : ' ' ∉ m.toStr := by
  cases m <;> decide

theorem toStr_no_newline (m : Method) : '\n' ∉ m.toStr := by
  cases m <;> decide

theorem toStr_ne_nil (m : Method) : m.toStr ≠ [] := by
  cases m <;> decide

theorem parseLoop_nil (r : Request) (bl : List Str) (rb : Bool) :
    parseLoop [] r bl rb = (r, bl) := rfl

theorem parseLoop_cons_eq (line : Str) (rest : List Str) (r : Request) (bl : List Str) (rb : Bool) :
    parseLoop (line :: rest) r bl rb =
      if line = [] then
        parseLoop rest r bl (if r.method = .POST ∨ r.method = .PUT then true else rb)
      else if rb then
        parseLoop rest r (bl ++ [line]) rb
      else
        parseLoop rest (if containsSub strColonSP line then parse_header_line r line else r) bl rb := rfl

theorem parseLoop_blank (rest : List Str) (r : Request) (bl : List Str) (rb : Bool) :
    parseLoop ([] :: rest) r bl rb =
      parseLoop rest r bl (if r.method = .POST ∨ r.method = .PUT then true else rb) := by
  rw [parseLoop_cons_eq, if_pos rfl]

theorem parseLoop_line (line : Str) (rest : List Str) (r : Request) (bl : List Str) (rb : Bool)
    (h : line ≠ []) :
    parseLoop (line :: rest) r bl rb =
      if rb then parseLoop rest r (bl ++ [line]) rb
      else parseLoop rest (if containsSub strColonSP line then parse_header_line r line else r) bl rb := by
  rw [parseLoop_cons_eq, if_neg h]

theorem collectedBody_nil (m : Method) (rb : Bool) : collectedBody m rb [] = [] := rfl

theorem collectedBody_cons_eq (m : Method) (rb : Bool) (l : Str) (rest : List Str) :
    collectedBody m rb (l :: rest) =
      if l = [] then collectedBody m (if m = .POST ∨ m = .PUT then true else rb) rest
      else if rb then l :: collectedBody m rb rest
      else collectedBody m rb rest := rfl

theorem dropThroughBlank_cons_eq (l : Str) (rest : List Str) :
    dropThroughBlank (l :: rest) = if l = [] then rest else dropThroughBlank rest := rfl

theorem parse_header_line_eq (r : Request) (line : Str) :
    parse_header_line r line =
      if (splitOn strColonSP line).length ≠ 2 then r
      else if r.headers.any
          (fun h => decide (toLowerStr h.name = toLowerStr ((splitOn strColonSP line).getD 0 []))) then r
      else
        { r with headers := r.headers ++
            [Header.mk ((splitOn strColonSP line).getD 0 []) ((splitOn strColonSP line).getD 1 [])] } := rfl

theorem parse_header_line_shape (r : Request) (line : Str) :
    ∃ ext, parse_header_line r line = { r with headers := r.headers ++ ext } := by
  rw [parse_header_line_eq]
  by_cases h1 : (splitOn strColonSP line).length ≠ 2
  · rw [if_pos h1]
    exact ⟨[], by simp⟩
  · rw [if_neg h1]
    by_cases h2 : r.headers.any
        (fun h => decide (toLowerStr h.name = toLowerStr ((splitOn strColonSP line).getD 0 []))) = true
    · rw [if_pos h2]
      exact ⟨[], by simp⟩
    · rw [if_neg h2]
      exact ⟨[Header.mk _ _], rfl⟩

theorem parse_header_line_dup (r : Request) (line : Str)
    (h : r.headers.any
      (fun h => decide (toLowerStr h.name = toLowerStr ((splitOn strColonSP line).getD 0 []))) = true) :
    parse_header_line r line = r := by
  rw [parse_header_line_eq]
  by_cases h1 : (splitOn strColonSP line).length ≠ 2
  · rw [if_pos h1]
  · rw [if_neg h1, if_pos h]

theorem parse_header_line_nodup (r : Request) (line : Str)
    (hnd : (r.headers.map (fun h => toLowerStr h.name)).Nodup) :
    ((parse_header_line r line).headers.map (fun h => toLowerStr h.name)).Nodup := by
  rw [parse_header_line_eq]
  by_cases h1 : (splitOn strColonSP line).length ≠ 2
  · rw [if_pos h1]; exact hnd
  · rw [if_neg h1]
    by_cases h2 : r.headers.any
        (fun h => decide (toLowerStr h.name = toLowerStr ((splitOn strColonSP line).getD 0 []))) = true
    · rw [if_pos h2]; exact hnd
    · rw [if_neg h2]
      show ((r.headers ++ [Header.mk _ _]).map (fun h => toLowerStr h.name)).Nodup
      rw [List.map_append]
      refine List.Nodup.append hnd (by simp) ?_
      intro x hx hmem
      simp only [List.map_cons, List.map_nil, List.mem_singleton] at hmem
      obtain ⟨hh, hhm, hxx⟩ := List.mem_map.mp hx
      apply h2
      rw [List.any_eq_true]
      refine ⟨hh, hhm, ?_⟩
      rw [decide_eq_true_eq, hxx]
      exact hmem

theorem parseLoop_fst_shape (ls : List Str) (r : Request) (bl : List Str) (rb : Bool) :
    ∃ ext, (parseLoop ls r bl rb).1 = { r with headers := r.headers ++ ext } := by
  induction ls generalizing r bl rb with
  | nil =>
    refine ⟨[], ?_⟩
    show r = { r with headers := r.headers ++ [] }
    simp
  | cons line rest ih =>
    by_cases hline : line = []
    · subst hline
      rw [parseLoop_blank]
      exact ih r bl _
    · rw [parseLoop_line line rest r bl rb hline]
      cases rb with
      | true =>
        rw [if_pos rfl]
        exact ih r _ true
      | false =>
        rw [if_neg Bool.false_ne_true]
        by_cases hsub : containsSub strColonSP line = true
        · rw [if_pos hsub]
          obtain ⟨e1, he1⟩ := parse_header_line_shape r line
          rw [he1]
          obtain ⟨e2, he2⟩ := ih { r with headers := r.headers ++ e1 } bl false
          rw [he2]
          exact ⟨e1 ++ e2, by simp⟩
        · rw [if_neg hsub]
          exact ih r bl false

theorem parseLoop_snd (ls : List Str) (r : Request) (bl : List Str) (rb : Bool) :
    (parseLoop ls r bl rb).2 = bl ++ collectedBody r.method rb ls := by
  induction ls generalizing r bl rb with
  | nil => simp [parseLoop_nil, collectedBody_nil]
  | cons line rest ih =>
    by_cases hline : line = []
    · subst hline
      rw [parseLoop_blank, collectedBody_cons_eq, if_pos rfl]
      exact ih r bl _
    · rw [parseLoop_line line rest r bl rb hline, collectedBody_cons_eq, if_neg hline]
      cases rb with
      | true =>
        rw [if_pos rfl, if_pos rfl, ih r (bl ++ [line]) true]
        simp
      | false =>
        rw [if_neg Bool.false_ne_true, if_neg Bool.false_ne_true]
        by_cases hsub : containsSub strColonSP line = true
        · rw [if_pos hsub]
          obtain ⟨e, he⟩ := parse_header_line_shape r line
          rw [he, ih _ bl false]
        · rw [if_neg hsub]
          exact ih r bl false

theorem collectedBody_other (m : Method) (ls : List Str) (h1 : m ≠ .POST) (h2 : m ≠ .PUT) :
    collectedBody m false ls = [] := by
  induction ls with
  | nil => rfl
  | cons l rest ih =>
    rw [collectedBody_cons_eq]
    by_cases hl : l = []
    · rw [if_pos hl, if_neg (by rintro (h | h); exacts [h1 h, h2 h])]
      exact ih
    · rw [if_neg hl, if_neg Bool.false_ne_true]
      exact ih

theorem collectedBody_true (m : Method) (ls : List Str) :
    collectedBody m true ls = ls.filter (fun l => !l.isEmpty) := by
  induction ls with
  | nil => rfl
  | cons l rest ih =>
    rw [collectedBody_cons_eq]
    by_cases hl : l = []
    · subst hl
      rw [if_pos rfl, ite_self, ih]
      simp [List.filter_cons]
    · rw [if_neg hl, if_pos rfl, ih]
      have hne : (!l.isEmpty) = true := by
        simp [List.isEmpty_iff, hl]
      simp [List.filter_cons, hne]

theorem collectedBody_post (m : Method) (ls : List Str) (hm : m = .POST ∨ m = .PUT) :
    collectedBody m false ls = (dropThroughBlank ls).filter (fun l => !l.isEmpty) := by
  induction ls with
  | nil => rfl
  | cons l rest ih =>
    rw [collectedBody_cons_eq, dropThroughBlank_cons_eq]
    by_cases hl : l = []
    · rw [if_pos hl, if_pos hm, if_pos hl]
      exact collectedBody_true m rest
    · rw [if_neg hl, if_neg Bool.false_ne_true, if_neg hl]
      exact ih

theorem collectedBody_mem (m : Method) (ls : List Str) :
    ∀ (rb : Bool), ∀ l ∈ collectedBody m rb ls, l ≠ [] ∧ l ∈ ls := by
  induction ls with
  | nil => intro rb l hl; rw [collectedBody_nil] at hl; simp at hl
  | cons x rest ih =>
    intro rb l hl
    rw [collectedBody_cons_eq] at hl
    by_cases hx : x = []
    · rw [if_pos hx] at hl
      obtain ⟨h1, h2⟩ := ih _ l hl
      exact ⟨h1, List.mem_cons_of_mem x h2⟩
    · rw [if_neg hx] at hl
      cases rb with
      | false =>
        rw [if_neg Bool.false_ne_true] at hl
        obtain ⟨h1, h2⟩ := ih false l hl
        exact ⟨h1, List.mem_cons_of_mem x h2⟩
      | true =>
        rw [if_pos rfl] at hl
        rcases List.mem_cons.mp hl with h | h
        · subst h
          exact ⟨hx, List.mem_cons_self _ _⟩
        · obtain ⟨h1, h2⟩ := ih true l h
          exact ⟨h1, List.mem_cons_of_mem x h2⟩

theorem parse_request_nil_eq (r : Request) (request : Str) (h : rustLines request = []) :
    parse_from_str r request = { r with body := [], initialized := true } := by
  unfold parse_from_str parse_request
  rw [h]

theorem parse_request_cons_eq (r : Request) (request : Str) (first : Str) (rest : List Str)
    (h : rustLines request = first :: rest) :
    parse_from_str r request =
      { (parseLoop rest (parse_method_line r first) [] false).1 with
        body := joinSep strCRLF (parseLoop rest (parse_method_line r first) [] false).2,
        initialized := true } := by
  unfold parse_from_str parse_request
  rw [h]

theorem parse_query_string_eq (r : Request) (string : Str) :
    parse_query_string r string =
      if (splitOn strQM string).length = 2 then
        { r with path := (splitOn strQM string).getD 0 [],
                 query := r.query ++
                   (splitOn strAMP ((splitOn strQM string).getD 1 [])).filterMap (fun q =>
                     if (splitOn strEQ q).length = 2 then
                       some (Query.mk ((splitOn strEQ q).getD 0 []) ((splitOn strEQ q).getD 1 []))
                     else none) }
      else { r with path := (splitOn strQM string).getD 0 [] } := rfl

theorem parse_method_line_eq (r : Request) (line : Str) :
    parse_method_line r line =
      if (splitOn strSP line).length ≠ 3 then r
      else
        match methodFromStr ((splitOn strSP line).getD 0 []) with
        | none => r
        | some m =>
          parse_query_string
            { r with method := m, full_path := (splitOn strSP line).getD 1 [] }
            ((splitOn strSP line).getD 1 []) := rfl

theorem parse_method_line_bad (r : Request) (line : Str)
    (h : (splitOn strSP line).length ≠ 3 ∨ methodFromStr ((splitOn strSP line).getD 0 []) = none) :
    parse_method_line r line = r := by
  rw [parse_method_line_eq]
  by_cases hlen : (splitOn strSP line).length ≠ 3
  · rw [if_pos hlen]
  · rw [if_neg hlen]
    rcases h with h | h
    · exact absurd h hlen
    · rw [h]

theorem parse_method_line_good (r : Request) (line : Str) (mtok target vtok : Str) (m : Method)
    (hsplit : splitOn strSP line = [mtok, target, vtok])
    (hm : methodFromStr mtok = some m) :
    parse_method_line r line =
      parse_query_string { r with method := m, full_path := target } target := by
  rw [parse_method_line_eq, hsplit, if_neg (by simp), List.getD_cons_zero, hm,
    List.getD_cons_succ, List.getD_cons_zero]

theorem parse_query_string_no_qm (r : Request) (string : Str)
    (h : containsSub strQM string = false) :
    parse_query_string r string = { r with path := string } := by
  have hs : splitOn strQM string = [string] := splitOn_not_contains _ _ h
  rw [parse_query_string_eq, hs, if_neg (by simp), List.getD_cons_zero]

theorem buildQueryFold_nil (np : Str) : buildQueryFold [] np = np := rfl

theorem buildQueryFold_cons (q : Query) (rest : List Query) (np : Str) :
    buildQueryFold (q :: rest) np =
      buildQueryFold rest
        (np ++ (if containsSub strQM np then strAMP else strQM) ++ q.name ++ strEQ ++ q.value) := rfl

theorem containsSub_append_self (pat s : Str) (hp : pat ≠ []) :
    containsSub pat (s ++ pat) = true := by
  have h := containsSub_self_append pat [] hp
  rw [List.append_nil] at h
  exact containsSub_append_right pat s pat h

theorem buildQueryFold_amp (qs : List Query) (np : Str) (h : containsSub strQM np = true) :
    buildQueryFold qs np = np ++ (qs.map (fun q => strAMP ++ queryPairStr q)).flatten := by
  induction qs generalizing np with
  | nil => simp [buildQueryFold_nil]
  | cons q qs' ih =>
    rw [buildQueryFold_cons, if_pos h,
      ih (np ++ strAMP ++ q.name ++ strEQ ++ q.value)
        (containsSub_append_left _ _ _ (containsSub_append_left _ _ _
          (containsSub_append_left _ _ _ (containsSub_append_left _ _ _ h))))]
    simp [queryPairStr, List.append_assoc]

theorem buildQueryFold_clean (qs : List Query) (np : Str) (h : containsSub strQM np = false) :
    buildQueryFold qs np = np ++ queryTargetSuffix qs := by
  cases qs with
  | nil => simp [buildQueryFold_nil, queryTargetSuffix]
  | cons q qs' =>
    rw [buildQueryFold_cons, if_neg (by rw [h]; exact Bool.false_ne_true),
      buildQueryFold_amp qs' _
        (containsSub_append_left _ _ _ (containsSub_append_left _ _ _
          (containsSub_append_left _ _ _ (containsSub_append_self strQM np (by simp [strQM])))))]
    show np ++ strQM ++ q.name ++ strEQ ++ q.value ++ _ = np ++ queryTargetSuffix (q :: qs')
    rw [show queryTargetSuffix (q :: qs') = strQM ++ joinSep strAMP ((q :: qs').map queryPairStr) from rfl,
      List.map_cons, joinSep_head_flatten]
    simp [queryPairStr, List.append_assoc, List.map_map, Function.comp_def]

theorem mem_buildQueryFold (qs : List Query) (np : Str) (c : Char)
    (h : c ∈ buildQueryFold qs np) :
    c ∈ np ∨ c = '?' ∨ c = '&' ∨ c = '=' ∨ ∃ q ∈ qs, c ∈ q.name ∨ c ∈ q.value := by
  induction qs generalizing np with
  | nil => exact Or.inl h
  | cons q qs' ih =>
    rw [buildQueryFold_cons] at h
    rcases ih _ h with h1 | h1 | h1 | h1 | ⟨x, hx, hc⟩
    · rcases List.mem_append.mp h1 with h2 | h2
      · rcases List.mem_append.mp h2 with h3 | h3
        · rcases List.mem_append.mp h3 with h4 | h4
          · rcases List.mem_append.mp h4 with h5 | h5
            · exact Or.inl h5
            · by_cases hq : containsSub strQM np = true
              · rw [if_pos hq] at h5
                simp only [strAMP, List.mem_singleton] at h5
                exact Or.inr (Or.inr (Or.inl h5))
              · rw [if_neg hq] at h5
                simp only [strQM, List.mem_singleton] at h5
                exact Or.inr (Or.inl h5)
          · exact Or.inr (Or.inr (Or.inr (Or.inr ⟨q, List.mem_cons_self _ _, Or.inl h4⟩)))
        · simp only [strEQ, List.mem_singleton] at h3
          exact Or.inr (Or.inr (Or.inr (Or.inl h3)))
      · exact Or.inr (Or.inr (Or.inr (Or.inr ⟨q, List.mem_cons_self _ _, Or.inr h2⟩)))
    · exact Or.inr (Or.inl h1)
    · exact Or.inr (Or.inr (Or.inl h1))
    · exact Or.inr (Or.inr (Or.inr (Or.inl h1)))
    · exact Or.inr (Or.inr (Or.inr (Or.inr ⟨x, List.mem_cons_of_mem q hx, hc⟩)))

theorem getD_zero_mem (l : List Str) (h : l ≠ []) : l.getD 0 [] ∈ l := by
  cases l with
  | nil => exact absurd rfl h
  | cons a t => simp

theorem splitOn_queryPairStr (q : Query) (hq : cleanQuery q) :
    splitOn strEQ (queryPairStr q) = [q.name, q.value] := by
  have h1 : queryPairStr q = q.name ++ '=' :: q.value := by
    simp [queryPairStr, strEQ]
  rw [h1]
  show splitOn ['='] (q.name ++ '=' :: q.value) = [q.name, q.value]
  rw [splitOn_single_append '=' q.name q.value hq.1.2.2.2.1,
    splitOn_not_contains _ _ ((containsSub_single_false '=' q.value).mpr hq.2.2.2.2.1)]

theorem filterMap_pairs (qs : List Query) (h : ∀ q ∈ qs, cleanQuery q) :
    ((qs.map queryPairStr).filterMap (fun q =>
      if (splitOn strEQ q).length = 2 then
        some (Query.mk ((splitOn strEQ q).getD 0 []) ((splitOn strEQ q).getD 1 []))
      else none)) = qs := by
  induction qs with
  | nil => rfl
  | cons q qs' ih =>
    rw [List.map_cons, List.filterMap_cons]
    have hsp := splitOn_queryPairStr q (h q (List.mem_cons_self _ _))
    rw [hsp]
    show (Query.mk q.name q.value) :: _ = q :: qs'
    rw [ih (fun x hx => h x (List.mem_cons_of_mem q hx))]

theorem qm_not_mem_joinAMP (qs : List Query) (hqs : ∀ q ∈ qs, cleanQuery q) :
    '?' ∉ joinSep strAMP (qs.map queryPairStr) := by
  intro hmem
  rcases mem_joinSep _ _ _ hmem with h | ⟨p, hp, hc⟩
  · simp [strAMP] at h
  · obtain ⟨x, hx, rfl⟩ := List.mem_map.mp hp
    have hcl := hqs x hx
    rcases List.mem_append.mp hc with h1 | h1
    · rcases List.mem_append.mp h1 with h2 | h2
      · exact hcl.1.2.1 h2
      · simp [strEQ] at h2
    · exact hcl.2.2.1 h1

theorem amp_not_mem_pairStr (q : Query) (hq : cleanQuery q) : '&' ∉ queryPairStr q := by
  intro hmem
  rcases List.mem_append.mp hmem with h1 | h1
  · rcases List.mem_append.mp h1 with h2 | h2
    · exact hq.1.2.2.1 h2
    · simp [strEQ] at h2
  · exact hq.2.2.2.1 h1

theorem parse_query_string_clean (r : Request) (path : Str) (qs : List Query)
    (hpath : cleanPath path) (hqs : ∀ q ∈ qs, cleanQuery q) :
    parse_query_string r (buildQueryFold qs path) =
      { r with path := path, query := r.query ++ qs } := by
  have hqm : containsSub strQM path = false := by
    show containsSub ['?'] path = false
    exact (containsSub_single_false '?' path).mpr hpath.2.1
  cases qs with
  | nil =>
    rw [buildQueryFold_nil, parse_query_string_no_qm r path hqm]
    simp
  | cons q qs' =>
    rw [buildQueryFold_clean _ _ hqm]
    have htarget : path ++ queryTargetSuffix (q :: qs') =
        path ++ '?' :: joinSep strAMP ((q :: qs').map queryPairStr) := rfl
    rw [htarget]
    have hJ : '?' ∉ joinSep strAMP ((q :: qs').map queryPairStr) := qm_not_mem_joinAMP _ hqs
    have hsplit : splitOn strQM (path ++ '?' :: joinSep strAMP ((q :: qs').map queryPairStr)) =
        [path, joinSep strAMP ((q :: qs').map queryPairStr)] := by
      show splitOn ['?'] _ = _
      rw [splitOn_single_append '?' path _ hpath.2.1,
        splitOn_not_contains _ _ ((containsSub_single_false '?' _).mpr hJ)]
    rw [parse_query_string_eq, hsplit, if_pos (by simp), List.getD_cons_zero,
      List.getD_cons_succ, List.getD_cons_zero]
    have hamp : splitOn strAMP (joinSep strAMP ((q :: qs').map queryPairStr)) =
        (q :: qs').map queryPairStr := by
      show splitOn ['&'] (joinSep ['&'] _) = _
      refine splitOn_joinSep_single '&' _ (by simp) ?_
      intro p hp
      obtain ⟨x, hx, rfl⟩ := List.mem_map.mp hp
      exact amp_not_mem_pairStr x (hqs x hx)
    rw [hamp, filterMap_pairs _ hqs]

theorem getD_one_mem (l : List Str) (h : l.length = 2) : l.getD 1 [] ∈ l := by
  obtain ⟨a, b, rfl⟩ := List.length_eq_two.mp h
  simp

theorem parse_query_string_fields (r : Request) (string : Str) :
    (parse_query_string r string).method = r.method ∧
    (parse_query_string r string).headers = r.headers ∧
    (parse_query_string r string).version = r.version ∧
    (parse_query_string r string).full_path = r.full_path ∧
    (parse_query_string r string).body = r.body ∧
    (parse_query_string r string).initialized = r.initialized := by
  rw [parse_query_string_eq]
  by_cases hlen : (splitOn strQM string).length = 2
  · rw [if_pos hlen]
    exact ⟨rfl, rfl, rfl, rfl, rfl, rfl⟩
  · rw [if_neg hlen]
    exact ⟨rfl, rfl, rfl, rfl, rfl, rfl⟩

theorem parse_query_string_path_clean (r : Request) (string : Str)
    (hsp : ' ' ∉ string) (hnl : '\n' ∉ string) :
    cleanPath (parse_query_string r string).path := by
  have hmem : (splitOn strQM string).getD 0 [] ∈ splitOn strQM string :=
    getD_zero_mem _ (splitOn_ne_nil _ _)
  have hqm : '?' ∉ (splitOn strQM string).getD 0 [] :=
    (containsSub_single_false '?' _).mp (splitOn_pieces strQM string (by simp [strQM]) _ hmem)
  have hS : ∀ c ∈ (splitOn strQM string).getD 0 [], c ∈ string :=
    fun c hc => splitOn_mem_mem strQM string _ hmem c hc
  have hcp : cleanPath ((splitOn strQM string).getD 0 []) :=
    ⟨fun h => hsp (hS ' ' h), hqm, fun h => hnl (hS '\n' h)⟩
  rw [parse_query_string_eq]
  by_cases hlen : (splitOn strQM string).length = 2
  · rw [if_pos hlen]
    exact hcp
  · rw [if_neg hlen]
    exact hcp

theorem parse_query_string_query (r : Request) (string : Str)
    (hsp : ' ' ∉ string) (hnl : '\n' ∉ string) :
    ∀ q ∈ (parse_query_string r string).query, q ∈ r.query ∨ cleanQuery q := by
  rw [parse_query_string_eq]
  by_cases hlen : (splitOn strQM string).length = 2
  · rw [if_pos hlen]
    intro q hq
    rcases List.mem_append.mp hq with h | h
    · exact Or.inl h
    · right
      obtain ⟨x, hx, hfx⟩ := List.mem_filterMap.mp h
      by_cases hxl : (splitOn strEQ x).length = 2
      · rw [if_pos hxl] at hfx
        injection hfx with he
        subst he
        have hqstrm : (splitOn strQM string).getD 1 [] ∈ splitOn strQM string :=
          getD_one_mem _ hlen
        have hqstr_qm : '?' ∉ (splitOn strQM string).getD 1 [] :=
          (containsSub_single_false '?' _).mp
            (splitOn_pieces strQM string (by simp [strQM]) _ hqstrm)
        have hqstr_s : ∀ c ∈ (splitOn strQM string).getD 1 [], c ∈ string :=
          fun c hc => splitOn_mem_mem strQM string _ hqstrm c hc
        have hx_amp : '&' ∉ x :=
          (containsSub_single_false '&' _).mp
            (splitOn_pieces strAMP _ (by simp [strAMP]) _ hx)
        have hx_q : ∀ c ∈ x, c ∈ (splitOn strQM string).getD 1 [] :=
          fun c hc => splitOn_mem_mem strAMP _ _ hx c hc
        have hn0m : (splitOn strEQ x).getD 0 [] ∈ splitOn strEQ x :=
          getD_zero_mem _ (splitOn_ne_nil _ _)
        have hv0m : (splitOn strEQ x).getD 1 [] ∈ splitOn strEQ x :=
          getD_one_mem _ hxl
        have hn0_eq : '=' ∉ (splitOn strEQ x).getD 0 [] :=
          (containsSub_single_false '=' _).mp
            (splitOn_pieces strEQ x (by simp [strEQ]) _ hn0m)
        have hv0_eq : '=' ∉ (splitOn strEQ x).getD 1 [] :=
          (containsSub_single_false '=' _).mp
            (splitOn_pieces strEQ x (by simp [strEQ]) _ hv0m)
        have hn0_x : ∀ c ∈ (splitOn strEQ x).getD 0 [], c ∈ x :=
          fun c hc => splitOn_mem_mem strEQ x _ hn0m c hc
        have hv0_x : ∀ c ∈ (splitOn strEQ x).getD 1 [], c ∈ x :=
          fun c hc => splitOn_mem_mem strEQ x _ hv0m c hc
        refine ⟨⟨?_, ?_, ?_, ?_, ?_⟩, ⟨?_, ?_, ?_, ?_, ?_⟩⟩
        · exact fun h => hsp (hqstr_s _ (hx_q _ (hn0_x _ h)))
        · exact fun h => hqstr_qm (hx_q _ (hn0_x _ h))
        · exact fun h => hx_amp (hn0_x _ h)
        · exact hn0_eq
        · exact fun h => hnl (hqstr_s _ (hx_q _ (hn0_x _ h)))
        · exact fun h => hsp (hqstr_s _ (hx_q _ (hv0_x _ h)))
        · exact fun h => hqstr_qm (hx_q _ (hv0_x _ h))
        · exact fun h => hx_amp (hv0_x _ h)
        · exact hv0_eq
        · exact fun h => hnl (hqstr_s _ (hx_q _ (hv0_x _ h)))
      · rw [if_neg hxl] at hfx
        exact absurd hfx (by simp)
  · rw [if_neg hlen]
    intro q hq
    exact Or.inl hq

theorem parse_header_line_clean (r : Request) (line : Str) (hnl : '\n' ∉ line)
    (hr : ∀ h ∈ r.headers, cleanHeader h) :
    ∀ h ∈ (parse_header_line r line).headers, cleanHeader h := by
  rw [parse_header_line_eq]
  by_cases h1 : (splitOn strColonSP line).length ≠ 2
  · rw [if_pos h1]
    exact hr
  · rw [if_neg h1]
    by_cases h2 : r.headers.any
        (fun h => decide (toLowerStr h.name = toLowerStr ((splitOn strColonSP line).getD 0 []))) = true
    · rw [if_pos h2]
      exact hr
    · rw [if_neg h2]
      intro h hh
      rcases List.mem_append.mp hh with h3 | h3
      · exact hr h h3
      · simp only [List.mem_singleton] at h3
        subst h3
        have hlen2 : (splitOn strColonSP line).length = 2 := not_not.mp h1
        have hn0 : (splitOn strColonSP line).getD 0 [] ∈ splitOn strColonSP line :=
          getD_zero_mem _ (splitOn_ne_nil _ _)
        have hv0 : (splitOn strColonSP line).getD 1 [] ∈ splitOn strColonSP line :=
          getD_one_mem _ hlen2
        exact ⟨splitOn_pieces strColonSP line (by simp [strColonSP]) _ hn0,
          splitOn_pieces strColonSP line (by simp [strColonSP]) _ hv0,
          fun hm => hnl (splitOn_mem_mem strColonSP line _ hn0 _ hm),
          fun hm => hnl (splitOn_mem_mem strColonSP line _ hv0 _ hm)⟩

theorem parseLoop_headers_clean (ls : List Str) (r : Request) (bl : List Str) (rb : Bool)
    (hr : ∀ h ∈ r.headers, cleanHeader h) (hls : ∀ l ∈ ls, '\n' ∉ l) :
    ∀ h ∈ (parseLoop ls r bl rb).1.headers, cleanHeader h := by
  induction ls generalizing r bl rb with
  | nil => exact hr
  | cons line rest ih =>
    have htail : ∀ l ∈ rest, '\n' ∉ l := fun l hl => hls l (List.mem_cons_of_mem line hl)
    by_cases hline : line = []
    · subst hline
      rw [parseLoop_blank]
      exact ih r bl _ hr htail
    · rw [parseLoop_line _ _ _ _ _ hline]
      cases rb with
      | true =>
        rw [if_pos rfl]
        exact ih r _ true hr htail
      | false =>
        rw [if_neg Bool.false_ne_true]
        by_cases hsub : containsSub strColonSP line = true
        · rw [if_pos hsub]
          exact ih _ bl false
            (parse_header_line_clean r line (hls line (List.mem_cons_self _ _)) hr) htail
        · rw [if_neg hsub]
          exact ih r bl false hr htail

theorem parseLoop_nodup (ls : List Str) (r : Request) (bl : List Str) (rb : Bool)
    (hnd : (r.headers.map (fun h => toLowerStr h.name)).Nodup) :
    ((parseLoop ls r bl rb).1.headers.map (fun h => toLowerStr h.name)).Nodup := by
  induction ls generalizing r bl rb with
  | nil => exact hnd
  | cons line rest ih =>
    by_cases hline : line = []
    · subst hline
      rw [parseLoop_blank]
      exact ih r bl _ hnd
    · rw [parseLoop_line _ _ _ _ _ hline]
      cases rb with
      | true =>
        rw [if_pos rfl]
        exact ih r _ true hnd
      | false =>
        rw [if_neg Bool.false_ne_true]
        by_cases hsub : containsSub strColonSP line = true
        · rw [if_pos hsub]
          exact ih _ bl false (parse_header_line_nodup r line hnd)
        · rw [if_neg hsub]
          exact ih r bl false hnd

theorem parsed_invariant (s first : Str) (rest : List Str) (mtok target vtok : Str) (m : Method)
    (hl : rustLines s = first :: rest)
    (hsplit : splitOn strSP first = [mtok, target, vtok])
    (hm : methodFromStr mtok = some m) :
    (parsed s).method = m ∧
    (parsed s).version = str "HTTP/1.1" ∧
    cleanPath (parsed s).path ∧
    (∀ q ∈ (parsed s).query, cleanQuery q) ∧
    (∀ h ∈ (parsed s).headers, cleanHeader h) ∧
    ((parsed s).headers.map (fun h => toLowerStr h.name)).Nodup ∧
    (parsed s).body = joinSep strCRLF (collectedBody m false rest) := by
  have hfirstm : first ∈ rustLines s := by
    rw [hl]
    exact List.mem_cons_self _ _
  have hfirstnl : '\n' ∉ first := rustLines_mem s first hfirstm
  have htargetm : target ∈ splitOn strSP first := by
    rw [hsplit]
    simp
  have htarget_sp : ' ' ∉ target :=
    (containsSub_single_false ' ' _).mp (splitOn_pieces strSP first (by simp [strSP]) _ htargetm)
  have htarget_nl : '\n' ∉ target := fun h => hfirstnl (splitOn_mem_mem strSP first _ htargetm _ h)
  have hrestnl : ∀ l ∈ rest, '\n' ∉ l := fun l hlm =>
    rustLines_mem s l (by rw [hl]; exact List.mem_cons_of_mem _ hlm)
  have hr1 : parse_method_line Request.new first =
      parse_query_string { Request.new with method := m, full_path := target } target :=
    parse_method_line_good _ _ _ _ _ _ hsplit hm
  have hfields :=
    parse_query_string_fields { Request.new with method := m, full_path := target } target
  have hpathc :=
    parse_query_string_path_clean { Request.new with method := m, full_path := target } target
      htarget_sp htarget_nl
  have hqueryc :=
    parse_query_string_query { Request.new with method := m, full_path := target } target
      htarget_sp htarget_nl
  have hX : parsed s =
      { (parseLoop rest (parse_query_string { Request.new with method := m, full_path := target } target) [] false).1 with
        body := joinSep strCRLF
          (parseLoop rest (parse_query_string { Request.new with method := m, full_path := target } target) [] false).2,
        initialized := true } := by
    unfold parsed
    rw [parse_request_cons_eq Request.new s first rest hl, hr1]
  obtain ⟨ext, hshape⟩ :=
    parseLoop_fst_shape rest
      (parse_query_string { Request.new with method := m, full_path := target } target) [] false
  have hheaders0 :
      (parse_query_string { Request.new with method := m, full_path := target } target).headers = [] :=
    hfields.2.1
  refine ⟨?_, ?_, ?_, ?_, ?_, ?_, ?_⟩
  · rw [hX]
    show (parseLoop rest _ [] false).1.method = m
    rw [hshape]
    show (parse_query_string _ target).method = m
    rw [hfields.1]
  · rw [hX]
    show (parseLoop rest _ [] false).1.version = str "HTTP/1.1"
    rw [hshape]
    show (parse_query_string _ target).version = str "HTTP/1.1"
    rw [hfields.2.2.1]
    rfl
  · rw [hX]
    show cleanPath (parseLoop rest _ [] false).1.path
    rw [hshape]
    exact hpathc
  · rw [hX]
    intro q hq
    rw [show ({ (parseLoop rest (parse_query_string { Request.new with method := m, full_path := target } target) [] false).1 with
        body := joinSep strCRLF
          (parseLoop rest (parse_query_string { Request.new with method := m, full_path := target } target) [] false).2,
        initialized := true } : Request).query =
      (parseLoop rest (parse_query_string { Request.new with method := m, full_path := target } target) [] false).1.query from rfl,
      hshape] at hq
    rcases hqueryc q hq with h | h
    · simp [Request.new] at h
    · exact h
  · rw [hX]
    show ∀ h ∈ (parseLoop rest _ [] false).1.headers, cleanHeader h
    refine parseLoop_headers_clean rest _ [] false ?_ hrestnl
    rw [hheaders0]
    intro h hh
    simp at hh
  · rw [hX]
    show ((parseLoop rest _ [] false).1.headers.map (fun h => toLowerStr h.name)).Nodup
    refine parseLoop_nodup rest _ [] false ?_
    rw [hheaders0]
    simp
  · rw [hX]
    show joinSep strCRLF (parseLoop rest _ [] false).2 = joinSep strCRLF (collectedBody m false rest)
    rw [parseLoop_snd, List.nil_append, hfields.1]

theorem build_eq (r : Request) :
    build r = joinSep strCRLF
        ((r.method.toStr ++ strSP ++ buildQueryFold r.query r.path ++ strSP ++ r.version)
          :: r.headers.map headerLineStr)
      ++ strCRLF ++ strCRLF ++ r.body := rfl

theorem joinSep_blank_cons (sep : Str) (bls : List Str) (h : bls ≠ []) :
    joinSep sep ([] :: bls) = sep ++ joinSep sep bls := by
  cases bls with
  | nil => exact absurd rfl h
  | cons b bs =>
    rw [joinSep_cons_cons]
    simp

theorem build_lines_empty_body (r : Request) (h : r.body = []) :
    build r = joinSep strCRLF
      (((r.method.toStr ++ strSP ++ buildQueryFold r.query r.path ++ strSP ++ r.version)
        :: r.headers.map headerLineStr) ++ [[], []]) := by
  rw [build_eq, h,
    joinSep_append strCRLF _ [[], []] (by simp) (by simp)]
  show _ ++ strCRLF ++ strCRLF ++ [] = _ ++ strCRLF ++ joinSep strCRLF [[], []]
  rw [show joinSep strCRLF [[], ([] : Str)] = [] ++ strCRLF ++ [] from rfl]
  simp [List.append_assoc]

theorem build_lines_body (r : Request) (bls : List Str) (hne : bls ≠ [])
    (h : r.body = joinSep strCRLF bls) :
    build r = joinSep strCRLF
      (((r.method.toStr ++ strSP ++ buildQueryFold r.query r.path ++ strSP ++ r.version)
        :: r.headers.map headerLineStr) ++ [] :: bls) := by
  rw [build_eq, h,
    joinSep_append strCRLF _ ([] :: bls) (by simp) (by simp),
    joinSep_blank_cons strCRLF bls hne]
  simp [List.append_assoc]

theorem np_no_space (qs : List Query) (path : Str) (hpath : cleanPath path)
    (hqs : ∀ q ∈ qs, cleanQuery q) :
    ' ' ∉ buildQueryFold qs path := by
  intro h
  rcases mem_buildQueryFold qs path ' ' h with h1 | h1 | h1 | h1 | ⟨q, hq, hc⟩
  · exact hpath.1 h1
  · exact absurd h1 (by decide)
  · exact absurd h1 (by decide)
  · exact absurd h1 (by decide)
  · rcases hc with hc | hc
    · exact (hqs q hq).1.1 hc
    · exact (hqs q hq).2.1 hc

theorem np_no_newline (qs : List Query) (path : Str) (hpath : cleanPath path)
    (hqs : ∀ q ∈ qs, cleanQuery q) :
    '\n' ∉ buildQueryFold qs path := by
  intro h
  rcases mem_buildQueryFold qs path '\n' h with h1 | h1 | h1 | h1 | ⟨q, hq, hc⟩
  · exact hpath.2.2 h1
  · exact absurd h1 (by decide)
  · exact absurd h1 (by decide)
  · exact absurd h1 (by decide)
  · rcases hc with hc | hc
    · exact (hqs q hq).1.2.2.2.2 hc
    · exact (hqs q hq).2.2.2.2.2 hc

theorem splitOn_reqline (m : Method) (np : Str) (hnp : ' ' ∉ np) :
    splitOn strSP (m.toStr ++ strSP ++ np ++ strSP ++ str "HTTP/1.1") =
      [m.toStr, np, str "HTTP/1.1"] := by
  have he : m.toStr ++ strSP ++ np ++ strSP ++ str "HTTP/1.1" =
      m.toStr ++ ' ' :: (np ++ ' ' :: str "HTTP/1.1") := by
    simp [strSP, List.append_assoc]
  rw [he]
  show splitOn [' '] _ = _
  rw [splitOn_single_append ' ' _ _ (toStr_no_space m),
    splitOn_single_append ' ' np _ hnp,
    splitOn_not_contains _ _ ((containsSub_single_false _ _).mpr (by decide))]

theorem headerLineStr_ne_nil (h : Header) : headerLineStr h ≠ [] := by
  obtain ⟨hn, hv⟩ := h
  cases hn <;> simp [headerLineStr, strColonSP]

theorem headerLineStr_contains (h : Header) : containsSub strColonSP (headerLineStr h) = true :=
  containsSub_mid strColonSP h.name h.value (by simp [strColonSP])

theorem splitOn_headerLineStr (h : Header) (hc : cleanHeader h) :
    splitOn strColonSP (headerLineStr h) = [h.name, h.value] := by
  show splitOn strColonSP (h.name ++ strColonSP ++ h.value) = _
  rw [splitOn_colonSP_append h.name h.value hc.1,
    splitOn_not_contains _ _ hc.2.1]

theorem parseLoop_header_lines (hs : List Header) (ls2 : List Str) (r : Request) (bl : List Str)
    (hclean : ∀ h ∈ hs, cleanHeader h)
    (hnd : ((r.headers ++ hs).map (fun h => toLowerStr h.name)).Nodup) :
    parseLoop (hs.map headerLineStr ++ ls2) r bl false =
      parseLoop ls2 { r with headers := r.headers ++ hs } bl false := by
  induction hs generalizing r with
  | nil =>
    rw [List.map_nil, List.nil_append,
      show ({ r with headers := r.headers ++ [] } : Request) = r from by simp]
  | cons h hs' ih =>
    have hch : cleanHeader h := hclean h (List.mem_cons_self _ _)
    have hsplit := splitOn_headerLineStr h hch
    have hfresh : toLowerStr h.name ∉ r.headers.map (fun x => toLowerStr x.name) := by
      rw [List.map_append] at hnd
      have hdisj := List.disjoint_of_nodup_append hnd
      intro hmem
      exact hdisj hmem (by
        rw [List.map_cons]
        exact List.mem_cons_self _ _)
    have hany : (r.headers.any (fun x =>
        decide (toLowerStr x.name = toLowerStr ((splitOn strColonSP (headerLineStr h)).getD 0 [])))) = false := by
      rw [← Bool.not_eq_true, List.any_eq_true]
      rintro ⟨x, hx, hdec⟩
      rw [decide_eq_true_eq, hsplit, List.getD_cons_zero] at hdec
      exact hfresh (List.mem_map.mpr ⟨x, hx, hdec⟩)
    have hstep : parse_header_line r (headerLineStr h) = { r with headers := r.headers ++ [h] } := by
      rw [parse_header_line_eq, hsplit]
      rw [if_neg (by simp), List.getD_cons_zero, List.getD_cons_succ, List.getD_cons_zero]
      rw [hsplit, List.getD_cons_zero] at hany
      rw [if_neg (by rw [hany]; exact Bool.false_ne_true)]
    rw [List.map_cons, List.cons_append,
      parseLoop_line _ _ _ _ _ (headerLineStr_ne_nil h),
      if_neg Bool.false_ne_true, if_pos (headerLineStr_contains h), hstep,
      ih { r with headers := r.headers ++ [h] }
        (fun x hx => hclean x (List.mem_cons_of_mem h hx))
        (by
          show (((r.headers ++ [h]) ++ hs').map (fun h => toLowerStr h.name)).Nodup
          rw [List.append_assoc]
          exact hnd)]
    congr 1
    simp

theorem parseLoop_body_true (bls : List Str) (r : Request) (bl : List Str)
    (h : ∀ l ∈ bls, l ≠ []) :
    parseLoop bls r bl true = (r, bl ++ bls) := by
  induction bls generalizing bl with
  | nil => simp [parseLoop_nil]
  | cons b bs ih =>
    rw [parseLoop_line b bs r bl true (h b (List.mem_cons_self _ _)), if_pos rfl,
      ih (bl ++ [b]) (fun l hl => h l (List.mem_cons_of_mem b hl))]
    simp

theorem getLast_append_ne (l1 l2 : List Str) (h : l2 ≠ []) :
    (l1 ++ l2).getLast? = l2.getLast? := by
  rw [List.getLast?_append]
  cases hl : l2.getLast? with
  | none => exact absurd (List.getLast?_eq_none_iff.mp hl) h
  | some a => rfl

theorem mem_of_getLast_eq (l : List Str) (a : Str) (h : l.getLast? = some a) : a ∈ l := by
  obtain ⟨ys, rfl⟩ := List.getLast?_eq_some_iff.mp h
  simp

theorem parseLoop_blank_method (rest : List Str) (r : Request) (bl : List Str)
    (h : r.method = .POST ∨ r.method = .PUT) :
    parseLoop ([] :: rest) r bl false = parseLoop rest r bl true := by
  rw [parseLoop_blank, if_pos h]

theorem parseLoop_blank_nomethod (rest : List Str) (r : Request) (bl : List Str)
    (h : ¬(r.method = .POST ∨ r.method = .PUT)) :
    parseLoop ([] :: rest) r bl false = parseLoop rest r bl false := by
  rw [parseLoop_blank, if_neg h]

theorem reparse_exact (R : Request) (m : Method) (bls : List Str)
    (hRm : R.method = m)
    (hRv : R.version = str "HTTP/1.1")
    (hRp : cleanPath R.path)
    (hRq : ∀ q ∈ R.query, cleanQuery q)
    (hRh : ∀ h ∈ R.headers, cleanHeader h)
    (hRnd : (R.headers.map (fun h => toLowerStr h.name)).Nodup)
    (hRb : R.body = joinSep strCRLF bls)
    (hbls : ∀ l ∈ bls, l ≠ [] ∧ '\n' ∉ l)
    (hblsm : bls = [] ∨ (m = .POST ∨ m = .PUT)) :
    parse_from_str Request.new (build R) =
      { Request.new with
        method := m, full_path := buildQueryFold R.query R.path,
        path := R.path, query := R.query, headers := R.headers,
        body := R.body, initialized := true } := by
  have hnp_sp : ' ' ∉ buildQueryFold R.query R.path := np_no_space _ _ hRp hRq
  have hnp_nl : '\n' ∉ buildQueryFold R.query R.path := np_no_newline _ _ hRp hRq
  have hreq : R.method.toStr ++ strSP ++ buildQueryFold R.query R.path ++ strSP ++ R.version =
      m.toStr ++ strSP ++ buildQueryFold R.query R.path ++ strSP ++ str "HTTP/1.1" := by
    rw [hRm, hRv]
  have hreq_nl : '\n' ∉ R.method.toStr ++ strSP ++ buildQueryFold R.query R.path ++ strSP ++ R.version := by
    rw [hreq]
    intro hmem
    simp only [List.mem_append] at hmem
    rcases hmem with (((h1 | h1) | h1) | h1) | h1
    · exact toStr_no_newline m h1
    · simp [strSP] at h1
    · exact hnp_nl h1
    · simp [strSP] at h1
    · exact absurd h1 (by decide)
  have hhl_nl : ∀ x ∈ R.headers.map headerLineStr, '\n' ∉ x := by
    intro x hx hmem
    obtain ⟨hh, hhm, rfl⟩ := List.mem_map.mp hx
    have hch := hRh hh hhm
    rcases List.mem_append.mp hmem with h1 | h1
    · rcases List.mem_append.mp h1 with h2 | h2
      · exact hch.2.2.1 h2
      · simp [strColonSP] at h2
    · exact hch.2.2.2 h1
  have hdecomp : rustLines (build R) =
      ((R.method.toStr ++ strSP ++ buildQueryFold R.query R.path ++ strSP ++ R.version)
        :: R.headers.map headerLineStr) ++ [] :: bls := by
    by_cases hbe : bls = []
    · subst hbe
      rw [build_lines_empty_body R (by rw [hRb]; rfl)]
      have hnlAll : ∀ l ∈ ((R.method.toStr ++ strSP ++ buildQueryFold R.query R.path ++ strSP ++ R.version)
          :: R.headers.map headerLineStr) ++ [[], ([] : Str)], '\n' ∉ l := by
        intro l hlm
        rcases List.mem_append.mp hlm with h1 | h1
        · rcases List.mem_cons.mp h1 with h2 | h2
          · subst h2
            exact hreq_nl
          · exact hhl_nl l h2
        · rcases List.mem_cons.mp h1 with h2 | h2
          · subst h2; simp
          · simp only [List.mem_singleton] at h2
            subst h2; simp
      rw [rustLines_joinCRLF _ (by simp) hnlAll]
      have hsplit2 : ((R.method.toStr ++ strSP ++ buildQueryFold R.query R.path ++ strSP ++ R.version)
          :: R.headers.map headerLineStr) ++ [[], ([] : Str)] =
          (((R.method.toStr ++ strSP ++ buildQueryFold R.query R.path ++ strSP ++ R.version)
            :: R.headers.map headerLineStr) ++ [[]]) ++ [([] : Str)] := by
        simp
      rw [if_pos (by rw [hsplit2]; exact List.getLast?_concat _), hsplit2, List.dropLast_concat]
    · rw [build_lines_body R bls hbe hRb]
      have hnlAll : ∀ l ∈ ((R.method.toStr ++ strSP ++ buildQueryFold R.query R.path ++ strSP ++ R.version)
          :: R.headers.map headerLineStr) ++ [] :: bls, '\n' ∉ l := by
        intro l hlm
        rcases List.mem_append.mp hlm with h1 | h1
        · rcases List.mem_cons.mp h1 with h2 | h2
          · subst h2
            exact hreq_nl
          · exact hhl_nl l h2
        · rcases List.mem_cons.mp h1 with h2 | h2
          · subst h2; simp
          · exact (hbls l h2).2
      rw [rustLines_joinCRLF _ (by simp) hnlAll]
      rw [if_neg ?_]
      intro hlast
      rw [getLast_append_ne _ ([] :: bls) (by simp)] at hlast
      have hlast2 : bls.getLast? = some ([] : Str) := by
        cases bls with
        | nil => exact absurd rfl hbe
        | cons b bs => exact hlast
      exact (hbls [] (mem_of_getLast_eq bls [] hlast2)).1 rfl
  rw [List.cons_append] at hdecomp
  rw [parse_request_cons_eq Request.new (build R) _ _ hdecomp]
  have hml : parse_method_line Request.new
      (R.method.toStr ++ strSP ++ buildQueryFold R.query R.path ++ strSP ++ R.version) =
      parse_query_string { Request.new with method := m, full_path := buildQueryFold R.query R.path }
        (buildQueryFold R.query R.path) := by
    rw [hreq]
    exact parse_method_line_good _ _ _ _ _ _ (splitOn_reqline m _ hnp_sp) (methodFromStr_toStr m)
  rw [hml, parse_query_string_clean _ R.path R.query hRp hRq,
    parseLoop_header_lines R.headers ([] :: bls) _ [] hRh
      (by exact (List.nil_append R.headers).symm ▸ hRnd)]
  by_cases hPP : m = .POST ∨ m = .PUT
  · rw [parseLoop_blank_method bls _ [] (by exact hPP),
      parseLoop_body_true bls _ [] (fun l hl => (hbls l hl).1)]
    simp only [Prod.fst, Prod.snd, List.nil_append]
    rw [← hRb]
    rfl
  · have hbe : bls = [] := by
      rcases hblsm with h | h
      · exact h
      · exact absurd h hPP
    subst hbe
    rw [parseLoop_blank_nomethod [] _ [] (by exact hPP), parseLoop_nil]
    simp only [Prod.fst, Prod.snd]
    rw [show joinSep strCRLF ([] : List Str) = [] from rfl, ← (by rw [hRb]; rfl : R.body = ([] : Str))]
    rfl

/-- Claim C3: for every request R obtained by a successful parse (the
request line splits into exactly three tokens and the method token is
recognized), parsing the text produced by `R.build()` into a fresh
`Request` reproduces the same method, path, header sequence, query
sequence, and body as R (`full_path` exempt). -/
theorem C3_parse_build_roundtrip (s first : Str) (rest : List Str) (mtok target vtok : Str)
    (m : Method)
    (hl : rustLines s = first :: rest)
    (hsplit : splitOn strSP first = [mtok, target, vtok])
    (hm : methodFromStr mtok = some m) :
    (reparsed s).method = (parsed s).method ∧
    (reparsed s).path = (parsed s).path ∧
    (reparsed s).headers = (parsed s).headers ∧
    (reparsed s).query = (parsed s).query ∧
    (reparsed s).body = (parsed s).body := by
  obtain ⟨hRm, hRv, hRp, hRq, hRh, hRnd, hRb⟩ :=
    parsed_invariant s first rest mtok target vtok m hl hsplit hm
  have hrestnl : ∀ l ∈ rest, '\n' ∉ l := fun l hlm =>
    rustLines_mem s l (by rw [hl]; exact List.mem_cons_of_mem _ hlm)
  have hbls : ∀ l ∈ collectedBody m false rest, l ≠ [] ∧ '\n' ∉ l := by
    intro l hlm
    obtain ⟨h1, h2⟩ := collectedBody_mem m rest false l hlm
    exact ⟨h1, hrestnl l h2⟩
  have hblsm : collectedBody m false rest = [] ∨ (m = .POST ∨ m = .PUT) := by
    by_cases hPP : m = .POST ∨ m = .PUT
    · exact Or.inr hPP
    · exact Or.inl (collectedBody_other m rest (fun h => hPP (Or.inl h)) (fun h => hPP (Or.inr h)))
  have hre := reparse_exact (parsed s) m (collectedBody m false rest)
    hRm hRv hRp hRq hRh hRnd hRb hbls hblsm
  refine ⟨?_, ?_, ?_, ?_, ?_⟩
  · rw [show reparsed s = parse_from_str Request.new (build (parsed s)) from rfl, hre]
    exact hRm.symm
  · rw [show reparsed s = parse_from_str Request.new (build (parsed s)) from rfl, hre]
  · rw [show reparsed s = parse_from_str Request.new (build (parsed s)) from rfl, hre]
  · rw [show reparsed s = parse_from_str Request.new (build (parsed s)) from rfl, hre]
  · rw [show reparsed s = parse_from_str Request.new (build (parsed s)) from rfl, hre]

/-- Witness for C3 at a concrete POST request with query, header and
body. -/
theorem C3_parse_build_roundtrip_witness :
    (reparsed (str "POST /?a=1 HTTP/1.1\r\nHost: x\r\n\r\nbody")).method =
      (parsed (str "POST /?a=1 HTTP/1.1\r\nHost: x\r\n\r\nbody")).method ∧
    (reparsed (str "POST /?a=1 HTTP/1.1\r\nHost: x\r\n\r\nbody")).path =
      (parsed (str "POST /?a=1 HTTP/1.1\r\nHost: x\r\n\r\nbody")).path ∧
    (reparsed (str "POST /?a=1 HTTP/1.1\r\nHost: x\r\n\r\nbody")).headers =
      (parsed (str "POST /?a=1 HTTP/1.1\r\nHost: x\r\n\r\nbody")).headers ∧
    (reparsed (str "POST /?a=1 HTTP/1.1\r\nHost: x\r\n\r\nbody")).query =
      (parsed (str "POST /?a=1 HTTP/1.1\r\nHost: x\r\n\r\nbody")).query ∧
    (reparsed (str "POST /?a=1 HTTP/1.1\r\nHost: x\r\n\r\nbody")).body =
      (parsed (str "POST /?a=1 HTTP/1.1\r\nHost: x\r\n\r\nbody")).body :=
  C3_parse_build_roundtrip (str "POST /?a=1 HTTP/1.1\r\nHost: x\r\n\r\nbody")
    (str "POST /?a=1 HTTP/1.1") [str "Host: x", [], str "body"]
    (str "POST") (str "/?a=1") (str "HTTP/1.1") .POST
    (by decide) (by decide) (by decide)

/-- Claim C1 counterexample: in the input below the parser enters the
body section at the first blank line (method POST), and the lines
encountered afterwards are `a`, an empty line, and `b`; joining them
verbatim with CRLF would give `a\r\n\r\nb`, but the parser skips the
empty line and produces `a\r\nb`. -/
theorem C1_counterexample :
    rustLines (str "POST / HTTP/1.1\r\n\r\na\r\n\r\nb") =
      [str "POST / HTTP/1.1", [], str "a", [], str "b"] ∧
    (parse_from_str Request.new (str "POST / HTTP/1.1\r\n\r\na\r\n\r\nb")).method = Method.POST ∧
    (parse_from_str Request.new (str "POST / HTTP/1.1\r\n\r\na\r\n\r\nb")).body = str "a\r\nb" ∧
    str "a\r\nb" ≠ joinSep strCRLF [str "a", [], str "b"] := by
  decide

/-- Claim C1 (amended): the body is the CRLF-join of the non-empty
lines after the first blank line when the parsed method is POST or PUT,
and empty otherwise — empty lines inside the body section are skipped,
not collected. -/
theorem C1_body_collection (r : Request) (input first : Str) (rest : List Str)
    (hl : rustLines input = first :: rest) :
    (parse_from_str r input).body =
      if (parse_method_line r first).method = .POST ∨ (parse_method_line r first).method = .PUT then
        joinSep strCRLF ((dropThroughBlank rest).filter (fun l => !l.isEmpty))
      else [] := by
  rw [parse_request_cons_eq r input first rest hl]
  show joinSep strCRLF (parseLoop rest (parse_method_line r first) [] false).2 = _
  rw [parseLoop_snd, List.nil_append]
  by_cases hPP : (parse_method_line r first).method = .POST ∨ (parse_method_line r first).method = .PUT
  · rw [if_pos hPP, collectedBody_post _ _ hPP]
  · rw [if_neg hPP,
      collectedBody_other _ _ (fun h => hPP (Or.inl h)) (fun h => hPP (Or.inr h))]
    rfl

/-- Witness for the amended C1 at the counterexample input. -/
theorem C1_body_collection_witness :
    (parse_from_str Request.new (str "POST / HTTP/1.1\r\n\r\na\r\n\r\nb")).body =
      if (parse_method_line Request.new (str "POST / HTTP/1.1")).method = .POST ∨
          (parse_method_line Request.new (str "POST / HTTP/1.1")).method = .PUT then
        joinSep strCRLF ((dropThroughBlank [[], str "a", [], str "b"]).filter (fun l => !l.isEmpty))
      else [] :=
  C1_body_collection Request.new (str "POST / HTTP/1.1\r\n\r\na\r\n\r\nb")
    (str "POST / HTTP/1.1") [[], str "a", [], str "b"] (by decide)

theorem set_header_full_path (r : Request) (n v : Str) :
    (set_header r n v).full_path = r.full_path := by
  unfold set_header
  split <;> rfl

theorem add_header_full_path (r : Request) (n v : Str) :
    (add_header r n v).full_path = r.full_path := by
  unfold add_header
  split
  · exact set_header_full_path r n v
  · rfl

theorem set_query_full_path (r : Request) (n v : Str) :
    (set_query r n v).full_path = r.full_path := by
  unfold set_query
  split <;> rfl

theorem add_query_full_path (r : Request) (n v : Str) :
    (add_query r n v).full_path = r.full_path := by
  unfold add_query
  split
  · exact set_query_full_path r n v
  · rfl

theorem splitOn_single_headD (c : Char) (s : Str) :
    (splitOn [c] s).getD 0 [] = s.takeWhile (fun a => a != c) := by
  induction s with
  | nil => rfl
  | cons x rest ih =>
    by_cases hx : x = c
    · subst hx
      rw [splitOn_single_cons_eq]
      simp [List.takeWhile_cons]
    · obtain ⟨p, ps, h1, h2⟩ := splitOn_single_cons_ne x c rest hx
      have hp : p = rest.takeWhile (fun a => a != c) := by
        rw [← ih, h1, List.getD_cons_zero]
      rw [h2, List.getD_cons_zero, hp, List.takeWhile_cons, if_pos (by simp [hx])]

theorem parse_query_string_path (r : Request) (string : Str) :
    (parse_query_string r string).path = (splitOn strQM string).getD 0 [] := by
  rw [parse_query_string_eq]
  by_cases hlen : (splitOn strQM string).length = 2
  · rw [if_pos hlen]
  · rw [if_neg hlen]

/-- Claim C2 counterexample: parsing `GET /a? HTTP/1.1` yields no query
parameters, yet `full_path` is `/a?` while `path` is `/a`, so
`full_path` is not `path` alone even though no query parameters were
present at parse time. -/
theorem C2_counterexample :
    (parsed (str "GET /a? HTTP/1.1")).query = [] ∧
    (parsed (str "GET /a? HTTP/1.1")).path = str "/a" ∧
    (parsed (str "GET /a? HTTP/1.1")).full_path = str "/a?" ∧
    str "/a?" ≠ str "/a" := by
  decide

/-- Claim C2 (amended): after a parse whose request line is well formed,
`full_path` is the raw target token verbatim; it equals `path` plus, if
the target contained a `?`, the `?` and everything after it (even when
no query pair was actually parsed); and no mutator other than
`set_full_path` ever recomputes or changes `full_path`. -/
theorem C2_full_path_snapshot (input first : Str) (rest : List Str)
    (mtok target vtok : Str) (m : Method)
    (hl : rustLines input = first :: rest)
    (hsplit : splitOn strSP first = [mtok, target, vtok])
    (hm : methodFromStr mtok = some m) :
    ((parsed input).full_path = target ∧
     (parsed input).path = target.takeWhile (fun c => c != '?') ∧
     (parsed input).full_path = (parsed input).path ++ target.dropWhile (fun c => c != '?')) ∧
    (∀ (r : Request) (n v : Str) (m2 : Method),
      (set_path r n).full_path = r.full_path ∧
      (set_method r m2).full_path = r.full_path ∧
      (set_body r n).full_path = r.full_path ∧
      (set_version r n).full_path = r.full_path ∧
      (set_header r n v).full_path = r.full_path ∧
      (add_header r n v).full_path = r.full_path ∧
      (set_query r n v).full_path = r.full_path ∧
      (add_query r n v).full_path = r.full_path) := by
  have hX : parsed input =
      { (parseLoop rest (parse_query_string { Request.new with method := m, full_path := target } target) [] false).1 with
        body := joinSep strCRLF
          (parseLoop rest (parse_query_string { Request.new with method := m, full_path := target } target) [] false).2,
        initialized := true } := by
    unfold parsed
    rw [parse_request_cons_eq Request.new input first rest hl,
      parse_method_line_good _ _ _ _ _ _ hsplit hm]
  obtain ⟨ext, hshape⟩ :=
    parseLoop_fst_shape rest
      (parse_query_string { Request.new with method := m, full_path := target } target) [] false
  have hfp : (parsed input).full_path = target := by
    rw [hX]
    show (parseLoop rest _ [] false).1.full_path = target
    rw [hshape]
    show (parse_query_string _ target).full_path = target
    rw [(parse_query_string_fields _ _).2.2.2.1]
  have hpath : (parsed input).path = target.takeWhile (fun c => c != '?') := by
    rw [hX]
    show (parseLoop rest _ [] false).1.path = _
    rw [hshape]
    show (parse_query_string _ target).path = _
    rw [parse_query_string_path]
    exact splitOn_single_headD '?' target
  refine ⟨⟨hfp, hpath, ?_⟩, ?_⟩
  · rw [hfp, hpath, List.takeWhile_append_dropWhile]
  · intro r n v m2
    exact ⟨rfl, rfl, rfl, rfl, set_header_full_path r n v, add_header_full_path r n v,
      set_query_full_path r n v, add_query_full_path r n v⟩

/-- Witness for the amended C2 at the counterexample input. -/
theorem C2_full_path_snapshot_witness :
    ((parsed (str "GET /a? HTTP/1.1")).full_path = str "/a?" ∧
     (parsed (str "GET /a? HTTP/1.1")).path = (str "/a?").takeWhile (fun c => c != '?') ∧
     (parsed (str "GET /a? HTTP/1.1")).full_path =
       (parsed (str "GET /a? HTTP/1.1")).path ++ (str "/a?").dropWhile (fun c => c != '?')) ∧
    (∀ (r : Request) (n v : Str) (m2 : Method),
      (set_path r n).full_path = r.full_path ∧
      (set_method r m2).full_path = r.full_path ∧
      (set_body r n).full_path = r.full_path ∧
      (set_version r n).full_path = r.full_path ∧
      (set_header r n v).full_path = r.full_path ∧
      (add_header r n v).full_path = r.full_path ∧
      (set_query r n v).full_path = r.full_path ∧
      (add_query r n v).full_path = r.full_path) :=
  C2_full_path_snapshot (str "GET /a? HTTP/1.1") (str "GET /a? HTTP/1.1") []
    (str "GET") (str "/a?") (str "HTTP/1.1") .GET (by decide) (by decide) (by decide)

theorem content_type_eq (r : Request) :
    content_type r =
      (r.headers.find? (fun h => decide (h.name = str "content-type"))).map Header.value := by
  unfold content_type
  cases r.headers.find? (fun h => decide (h.name = str "content-type")) <;> rfl

theorem content_length_eq (r : Request) :
    content_length r =
      (r.headers.find? (fun h => decide (h.name = str "content-length"))).map Header.value := by
  unfold content_length
  cases r.headers.find? (fun h => decide (h.name = str "content-length")) <;> rfl

theorem find_exact_some (hs : List Header) (key : Str) (h : Header)
    (hf : hs.find? (fun x => decide (x.name = key)) = some h) :
    h ∈ hs ∧ h.name = key := by
  have hp := List.find?_some hf
  simp only [decide_eq_true_eq] at hp
  exact ⟨List.mem_of_find?_eq_some hf, hp⟩

theorem find_exact_isSome (hs : List Header) (key : Str) :
    ((hs.find? (fun h => decide (h.name = key))).map Header.value).isSome ↔
      ∃ h, h ∈ hs ∧ h.name = key := by
  cases hf : hs.find? (fun h => decide (h.name = key)) with
  | none =>
    constructor
    · intro hh
      simp at hh
    · rintro ⟨h, hm, hn⟩
      have hnone := List.find?_eq_none.mp hf h hm
      rw [decide_eq_true_eq] at hnone
      exact absurd hn hnone
  | some h =>
    constructor
    · intro _
      obtain ⟨hm, hn⟩ := find_exact_some hs key h hf
      exact ⟨h, hm, hn⟩
    · intro _
      rfl

/-- Claim C4: `content_type()` (resp. `content_length()`) returns the
stored value exactly when a header whose stored name is
character-for-character equal to the lowercase key `content-type`
(resp. `content-length`) is present, and returns absent otherwise; a
header stored with other casing, such as `Content-Type`, is not found
by these lookups even though `find_header` finds it. -/
theorem C4_content_lookups :
    (∀ r : Request,
      ((content_type r).isSome ↔ ∃ h, h ∈ r.headers ∧ h.name = str "content-type") ∧
      (∀ v, content_type r = some v →
        ∃ h, h ∈ r.headers ∧ h.name = str "content-type" ∧ h.value = v)) ∧
    (∀ r : Request,
      ((content_length r).isSome ↔ ∃ h, h ∈ r.headers ∧ h.name = str "content-length") ∧
      (∀ v, content_length r = some v →
        ∃ h, h ∈ r.headers ∧ h.name = str "content-length" ∧ h.value = v)) ∧
    (content_type (add_header Request.new (str "Content-Type") (str "x")) = none ∧
     find_header (add_header Request.new (str "Content-Type") (str "x")) (str "content-type") =
       some (Header.mk (str "Content-Type") (str "x"))) := by
  refine ⟨?_, ?_, by decide, by decide⟩
  · intro r
    constructor
    · rw [content_type_eq]
      exact find_exact_isSome r.headers _
    · intro v hv
      rw [content_type_eq] at hv
      cases hf : r.headers.find? (fun h => decide (h.name = str "content-type")) with
      | none =>
        rw [hf] at hv
        exact absurd hv (by simp)
      | some h =>
        rw [hf] at hv
        obtain ⟨hm, hn⟩ := find_exact_some _ _ _ hf
        exact ⟨h, hm, hn, Option.some.inj hv⟩
  · intro r
    constructor
    · rw [content_length_eq]
      exact find_exact_isSome r.headers _
    · intro v hv
      rw [content_length_eq] at hv
      cases hf : r.headers.find? (fun h => decide (h.name = str "content-length")) with
      | none =>
        rw [hf] at hv
        exact absurd hv (by simp)
      | some h =>
        rw [hf] at hv
        obtain ⟨hm, hn⟩ := find_exact_some _ _ _ hf
        exact ⟨h, hm, hn, Option.some.inj hv⟩

/-- Witness for C4: a request that stores the exact lowercase key. -/
theorem C4_content_lookups_witness :
    ∃ h, h ∈ (add_header Request.new (str "content-type") (str "v")).headers ∧
      h.name = str "content-type" ∧ h.value = str "v" :=
  (C4_content_lookups.1 (add_header Request.new (str "content-type") (str "v"))).2
    (str "v") (by decide)

/-- Claim C5 counterexample: when the path already contains a `?`, the
first query pair is appended with `&`, not `?`: the rendering is not
"path, then `?`, then `&`-joined pairs" for every request. -/
theorem C5_counterexample :
    build { Request.new with path := str "/a?b", query := [Query.mk (str "c") (str "d")] } =
      str "GET /a?b&c=d HTTP/1.1\r\n\r\n" ∧
    str "GET /a?b&c=d HTTP/1.1\r\n\r\n" ≠ str "GET /a?b?c=d HTTP/1.1\r\n\r\n" := by
  decide

/-- Claim C5 (amended): the concrete build example of the claim holds
exactly, and the general rendering 'METHOD target VERSION', CRLF-joined
headers, CRLF CRLF, raw body — with the query pairs appended to path as
`?` then `&`-joined — holds for every request whose path does not
already contain a `?` (otherwise the separator before a pair is `&`
whenever the target accumulated so far already contains `?`). -/
theorem C5_build_rendering :
    build { Request.new with
      method := .POST, path := str "/",
      headers := [Header.mk (str "Host") (str "localhost2"),
        Header.mk (str "Content-Type") (str "plain")],
      query := [Query.mk (str "name") (str "value2"), Query.mk (str "name2") (str "value")],
      body := str "body" } =
      str "POST /?name=value2&name2=value HTTP/1.1\r\nHost: localhost2\r\nContent-Type: plain\r\n\r\nbody" ∧
    (∀ r : Request, containsSub strQM r.path = false →
      build r = r.method.toStr ++ strSP ++ (r.path ++ queryTargetSuffix r.query) ++ strSP ++ r.version
        ++ (r.headers.map (fun h => strCRLF ++ h.name ++ strColonSP ++ h.value)).flatten
        ++ strCRLF ++ strCRLF ++ r.body) := by
  constructor
  · decide
  · intro r hq
    rw [build_eq, buildQueryFold_clean r.query r.path hq, joinSep_head_flatten]
    simp [headerLineStr, List.map_map, Function.comp_def, List.append_assoc]

/-- Witness for the amended C5 at the fresh request. -/
theorem C5_build_rendering_witness :
    containsSub strQM Request.new.path = false ∧
    build Request.new = Request.new.method.toStr ++ strSP ++
        (Request.new.path ++ queryTargetSuffix Request.new.query) ++ strSP ++ Request.new.version
      ++ (Request.new.headers.map (fun h => strCRLF ++ h.name ++ strColonSP ++ h.value)).flatten
      ++ strCRLF ++ strCRLF ++ Request.new.body :=
  ⟨by decide, C5_build_rendering.2 Request.new (by decide)⟩

/-- Claim C6: parsing the POST example yields method POST, path `/`,
headers exactly Host/localhost then Content-Type/plain, query exactly
name/value, and body `body`. -/
theorem C6_parse_example :
    (parsed (str "POST /?name=value HTTP/1.1\r\nHost: localhost\r\nContent-Type: plain\r\n\r\nbody")).method = Method.POST ∧
    (parsed (str "POST /?name=value HTTP/1.1\r\nHost: localhost\r\nContent-Type: plain\r\n\r\nbody")).path = str "/" ∧
    (parsed (str "POST /?name=value HTTP/1.1\r\nHost: localhost\r\nContent-Type: plain\r\n\r\nbody")).headers =
      [Header.mk (str "Host") (str "localhost"), Header.mk (str "Content-Type") (str "plain")] ∧
    (parsed (str "POST /?name=value HTTP/1.1\r\nHost: localhost\r\nContent-Type: plain\r\n\r\nbody")).query =
      [Query.mk (str "name") (str "value")] ∧
    (parsed (str "POST /?name=value HTTP/1.1\r\nHost: localhost\r\nContent-Type: plain\r\n\r\nbody")).body = str "body" := by
  decide

theorem setHeaderValueInPlace_cons_eq (n v : Str) (h : Header) (t : List Header) :
    setHeaderValueInPlace n v (h :: t) =
      if toLowerStr h.name = toLowerStr n then { h with value := v } :: t
      else h :: setHeaderValueInPlace n v t := rfl

theorem setHeaderValueInPlace_names (n v : Str) (hs : List Header) :
    (setHeaderValueInPlace n v hs).map Header.name = hs.map Header.name := by
  induction hs with
  | nil => rfl
  | cons h t ih =>
    rw [setHeaderValueInPlace_cons_eq]
    by_cases hm : toLowerStr h.name = toLowerStr n
    · rw [if_pos hm]
      rfl
    · rw [if_neg hm, List.map_cons, List.map_cons, ih]

theorem add_header_eq_set_header (r : Request) (n v : Str) :
    add_header r n v = set_header r n v := by
  unfold add_header
  by_cases h : r.headers.any (fun h => decide (toLowerStr h.name = toLowerStr n)) = true
  · rw [if_pos h]
  · rw [if_neg h]
    unfold set_header
    rw [if_neg h]

theorem set_header_names_dup (r : Request) (n v : Str)
    (h : r.headers.any (fun h => decide (toLowerStr h.name = toLowerStr n)) = true) :
    (set_header r n v).headers.map Header.name = r.headers.map Header.name := by
  unfold set_header
  rw [if_pos h]
  exact setHeaderValueInPlace_names n v r.headers

theorem lower_names_eq_map (hs : List Header) :
    hs.map (fun h => toLowerStr h.name) = (hs.map Header.name).map toLowerStr := by
  rw [List.map_map]
  rfl

theorem set_header_nodup (r : Request) (n v : Str)
    (hnd : (r.headers.map (fun h => toLowerStr h.name)).Nodup) :
    ((set_header r n v).headers.map (fun h => toLowerStr h.name)).Nodup := by
  unfold set_header
  by_cases h : r.headers.any (fun h => decide (toLowerStr h.name = toLowerStr n)) = true
  · rw [if_pos h]
    show ((setHeaderValueInPlace n v r.headers).map (fun h => toLowerStr h.name)).Nodup
    rw [lower_names_eq_map, setHeaderValueInPlace_names, ← lower_names_eq_map]
    exact hnd
  · rw [if_neg h]
    show ((r.headers ++ [Header.mk n v]).map (fun h => toLowerStr h.name)).Nodup
    rw [List.map_append]
    refine List.Nodup.append hnd (by simp) ?_
    intro x hx hmem
    simp only [List.map_cons, List.map_nil, List.mem_singleton] at hmem
    obtain ⟨hh, hhm, hxx⟩ := List.mem_map.mp hx
    apply h
    rw [List.any_eq_true]
    refine ⟨hh, hhm, ?_⟩
    rw [decide_eq_true_eq, hxx]
    exact hmem

theorem parse_method_line_headers (r : Request) (line : Str) :
    (parse_method_line r line).headers = r.headers := by
  rw [parse_method_line_eq]
  by_cases hlen : (splitOn strSP line).length ≠ 3
  · rw [if_pos hlen]
  · rw [if_neg hlen]
    cases hmf : methodFromStr ((splitOn strSP line).getD 0 []) with
    | none => rfl
    | some m => exact (parse_query_string_fields _ _).2.1

theorem parse_from_str_nodup (r : Request) (s : Str)
    (hnd : (r.headers.map (fun h => toLowerStr h.name)).Nodup) :
    ((parse_from_str r s).headers.map (fun h => toLowerStr h.name)).Nodup := by
  cases hrl : rustLines s with
  | nil =>
    rw [parse_request_nil_eq r s hrl]
    exact hnd
  | cons first rest =>
    rw [parse_request_cons_eq r s first rest hrl]
    show ((parseLoop rest (parse_method_line r first) [] false).1.headers.map
      (fun h => toLowerStr h.name)).Nodup
    refine parseLoop_nodup rest _ [] false ?_
    rw [parse_method_line_headers]
    exact hnd

/-- Claim C7: for every request reachable from `Request::new` by parse,
`set_header` and `add_header` calls, the stored header names are
pairwise distinct under case-insensitive comparison; during parsing a
duplicate header line is dropped (first wins); `set_header` on a
collision updates the value in place keeping the stored names, and
`add_header` always behaves exactly like `set_header`. -/
theorem C7_header_uniqueness :
    (∀ r, ReachableHSA r → ((r.headers.map (fun h => toLowerStr h.name)).Nodup)) ∧
    (∀ (r : Request) (line : Str),
      r.headers.any (fun h =>
        decide (toLowerStr h.name = toLowerStr ((splitOn strColonSP line).getD 0 []))) = true →
      parse_header_line r line = r) ∧
    (∀ (r : Request) (n v : Str),
      r.headers.any (fun h => decide (toLowerStr h.name = toLowerStr n)) = true →
      (set_header r n v).headers.map Header.name = r.headers.map Header.name) ∧
    (∀ (r : Request) (n v : Str), add_header r n v = set_header r n v) := by
  refine ⟨?_, parse_header_line_dup, set_header_names_dup, add_header_eq_set_header⟩
  intro r hr
  induction hr with
  | new => simp [Request.new]
  | parse r s _ ih => exact parse_from_str_nodup r s ih
  | set r n v _ ih => exact set_header_nodup r n v ih
  | add r n v _ ih =>
    rw [add_header_eq_set_header]
    exact set_header_nodup r n v ih

/-- Witness for C7: the uniqueness invariant at a concrete parse that
contains a case-insensitive duplicate header line. -/
theorem C7_header_uniqueness_witness :
    (((parse_from_str Request.new (str "GET / HTTP/1.1\r\nHost: a\r\nhost: b")).headers.map
      (fun h => toLowerStr h.name)).Nodup) :=
  C7_header_uniqueness.1 _ (ReachableHSA.parse Request.new _ ReachableHSA.new)

theorem parse_from_str_initialized (r : Request) (s : Str) :
    (parse_from_str r s).initialized = true := by
  cases hrl : rustLines s with
  | nil => rw [parse_request_nil_eq r s hrl]
  | cons first rest => rw [parse_request_cons_eq r s first rest hrl]

theorem set_header_initialized (r : Request) (n v : Str) :
    (set_header r n v).initialized = true := by
  unfold set_header
  split <;> rfl

theorem add_header_initialized (r : Request) (n v : Str) :
    (add_header r n v).initialized = true := by
  unfold add_header
  split
  · exact set_header_initialized r n v
  · rfl

theorem set_query_initialized (r : Request) (n v : Str) :
    (set_query r n v).initialized = true := by
  unfold set_query
  split <;> rfl

theorem add_query_initialized (r : Request) (n v : Str) :
    (add_query r n v).initialized = true := by
  unfold add_query
  split
  · exact set_query_initialized r n v
  · rfl

/-- Claim C8: `initialized` is a write-once-to-true latch: it is false
only for a freshly constructed request, every mutator and every parse
sets it to true (parse unconditionally, even on a malformed request
line), and no operation ever sets it back to false. -/
theorem C8_initialized_latch :
    Request.new.initialized = false ∧
    (∀ (r : Request) (s : Str), (parse_from_str r s).initialized = true) ∧
    (∀ (r : Request) (b : Str), (set_body r b).initialized = true) ∧
    (∀ (r : Request) (v : Str), (set_version r v).initialized = true) ∧
    (∀ (r : Request) (m : Method), (set_method r m).initialized = true) ∧
    (∀ (r : Request) (p : Str), (set_full_path r p).initialized = true) ∧
    (∀ (r : Request) (p : Str), (set_path r p).initialized = true) ∧
    (∀ (r : Request) (n v : Str), (set_header r n v).initialized = true) ∧
    (∀ (r : Request) (n v : Str), (add_header r n v).initialized = true) ∧
    (∀ (r : Request) (n v : Str), (set_query r n v).initialized = true) ∧
    (∀ (r : Request) (n v : Str), (add_query r n v).initialized = true) ∧
    (∀ r, ReachableAll r → r = Request.new ∨ r.initialized = true) := by
  refine ⟨rfl, parse_from_str_initialized, fun r b => rfl, fun r v => rfl, fun r m => rfl,
    fun r p => rfl, fun r p => rfl, set_header_initialized, add_header_initialized,
    set_query_initialized, add_query_initialized, ?_⟩
  intro r hr
  induction hr with
  | new => exact Or.inl rfl
  | parse r s _ _ => exact Or.inr (parse_from_str_initialized r s)
  | sbody r b _ _ => exact Or.inr rfl
  | sversion r v _ _ => exact Or.inr rfl
  | smethod r m _ _ => exact Or.inr rfl
  | sfull r p _ _ => exact Or.inr rfl
  | spath r p _ _ => exact Or.inr rfl
  | sheader r n v _ _ => exact Or.inr (set_header_initialized r n v)
  | aheader r n v _ _ => exact Or.inr (add_header_initialized r n v)
  | squery r n v _ _ => exact Or.inr (set_query_initialized r n v)
  | aquery r n v _ _ => exact Or.inr (add_query_initialized r n v)

/-- Witness for C8: the latch conclusion at a concrete mutated request. -/
theorem C8_initialized_latch_witness :
    set_body Request.new (str "x") = Request.new ∨
      (set_body Request.new (str "x")).initialized = true :=
  C8_initialized_latch.2.2.2.2.2.2.2.2.2.2.2 _
    (ReachableAll.sbody Request.new (str "x") ReachableAll.new)

/-- Claim C9: when the request line does not split on single spaces
into exactly three tokens, or its method token is unrecognized, parsing
a fresh request leaves method, path, full_path and query at their
defaults, still processes the remaining lines (well-formed header lines
after a malformed request line are stored), and the call completes,
setting `initialized`. -/
theorem C9_malformed_request_line (input first : Str) (rest : List Str)
    (hl : rustLines input = first :: rest)
    (hbad : (splitOn strSP first).length ≠ 3 ∨
      methodFromStr ((splitOn strSP first).getD 0 []) = none) :
    (parsed input).method = Method.GET ∧
    (parsed input).path = [] ∧
    (parsed input).full_path = [] ∧
    (parsed input).query = [] ∧
    (parsed input).headers = (parseLoop rest Request.new [] false).1.headers ∧
    (parsed input).initialized = true ∧
    (parsed (str "BAD LINE\r\nHost: x\r\n\r\n")).headers = [Header.mk (str "Host") (str "x")] := by
  have hml : parse_method_line Request.new first = Request.new :=
    parse_method_line_bad _ _ hbad
  have hX : parsed input =
      { (parseLoop rest Request.new [] false).1 with
        body := joinSep strCRLF (parseLoop rest Request.new [] false).2,
        initialized := true } := by
    unfold parsed
    rw [parse_request_cons_eq Request.new input first rest hl, hml]
  obtain ⟨ext, hshape⟩ := parseLoop_fst_shape rest Request.new [] false
  refine ⟨?_, ?_, ?_, ?_, ?_, ?_, by decide⟩
  · rw [hX]
    show (parseLoop rest Request.new [] false).1.method = Method.GET
    rw [hshape]
    rfl
  · rw [hX]
    show (parseLoop rest Request.new [] false).1.path = []
    rw [hshape]
    rfl
  · rw [hX]
    show (parseLoop rest Request.new [] false).1.full_path = []
    rw [hshape]
    rfl
  · rw [hX]
    show (parseLoop rest Request.new [] false).1.query = []
    rw [hshape]
    rfl
  · rw [hX]
  · rw [hX]

/-- Witness for C9 at a concrete two-token request line followed by a
header line. -/
theorem C9_malformed_request_line_witness :
    (parsed (str "BAD LINE\r\nHost: x\r\n\r\n")).method = Method.GET ∧
    (parsed (str "BAD LINE\r\nHost: x\r\n\r\n")).path = [] ∧
    (parsed (str "BAD LINE\r\nHost: x\r\n\r\n")).full_path = [] ∧
    (parsed (str "BAD LINE\r\nHost: x\r\n\r\n")).query = [] ∧
    (parsed (str "BAD LINE\r\nHost: x\r\n\r\n")).headers =
      (parseLoop [str "Host: x", []] Request.new [] false).1.headers ∧
    (parsed (str "BAD LINE\r\nHost: x\r\n\r\n")).initialized = true ∧
    (parsed (str "BAD LINE\r\nHost: x\r\n\r\n")).headers = [Header.mk (str "Host") (str "x")] :=
  C9_malformed_request_line (str "BAD LINE\r\nHost: x\r\n\r\n") (str "BAD LINE")
    [str "Host: x", []] (by decide) (by decide)

/-- Claim C10 counterexample: a second parse overwrites `path` (and not
only the body field): after parsing `GET /a HTTP/1.1` and then
`GET /b HTTP/1.1` on the same request, `path` is `/b`, not `/a`. -/
theorem C10_counterexample :
    (parsed (str "GET /a HTTP/1.1")).path = str "/a" ∧
    (parse_from_str (parsed (str "GET /a HTTP/1.1")) (str "GET /b HTTP/1.1")).path = str "/b" ∧
    str "/b" ≠ str "/a" := by
  decide

theorem parse_method_line_query_ext (r : Request) (line : Str) :
    ∃ e, (parse_method_line r line).query = r.query ++ e := by
  rw [parse_method_line_eq]
  by_cases hlen : (splitOn strSP line).length ≠ 3
  · rw [if_pos hlen]
    exact ⟨[], by simp⟩
  · rw [if_neg hlen]
    cases hmf : methodFromStr ((splitOn strSP line).getD 0 []) with
    | none => exact ⟨[], by simp⟩
    | some m =>
      show ∃ e, (parse_query_string _ _).query = r.query ++ e
      rw [parse_query_string_eq]
      by_cases hq : (splitOn strQM ((splitOn strSP line).getD 1 [])).length = 2
      · rw [if_pos hq]
        exact ⟨_, rfl⟩
      · rw [if_neg hq]
        exact ⟨[], by simp⟩

theorem parse_method_line_method_body (r : Request) (b : Str) (line : Str) :
    (parse_method_line { r with body := b } line).method = (parse_method_line r line).method := by
  rw [parse_method_line_eq, parse_method_line_eq]
  by_cases hlen : (splitOn strSP line).length ≠ 3
  · rw [if_pos hlen, if_pos hlen]
  · rw [if_neg hlen, if_neg hlen]
    cases hmf : methodFromStr ((splitOn strSP line).getD 0 []) with
    | none => rfl
    | some m =>
      rw [(parse_query_string_fields _ _).1, (parse_query_string_fields _ _).1]

/-- Claim C10 (amended): `parse_from_str` never clears the existing
header and query collections — newly parsed query pairs are appended
(parsing the same text twice duplicates its query parameters), existing
headers are kept and colliding new header lines are dropped — and the
body is overwritten regardless of its prior value; but the method,
path and full_path fields are also overwritten on a well-formed request
line, so the body is not the only field the parse replaces. -/
theorem C10_parse_accumulates (r : Request) (input : Str) :
    (∃ hext, (parse_from_str r input).headers = r.headers ++ hext) ∧
    (∃ qext, (parse_from_str r input).query = r.query ++ qext) ∧
    (∀ b, (parse_from_str { r with body := b } input).body = (parse_from_str r input).body) ∧
    (parse_from_str (parse_from_str Request.new (str "GET /?a=1 HTTP/1.1"))
        (str "GET /?a=1 HTTP/1.1")).query =
      [Query.mk (str "a") (str "1"), Query.mk (str "a") (str "1")] ∧
    (parse_from_str (parse_from_str Request.new (str "GET / HTTP/1.1\r\nHost: x"))
        (str "GET / HTTP/1.1\r\nHost: x")).headers =
      [Header.mk (str "Host") (str "x")] := by
  refine ⟨?_, ?_, ?_, by decide, by decide⟩
  · cases hrl : rustLines input with
    | nil =>
      rw [parse_request_nil_eq r input hrl]
      exact ⟨[], by simp⟩
    | cons first rest =>
      rw [parse_request_cons_eq r input first rest hrl]
      obtain ⟨ext, hshape⟩ := parseLoop_fst_shape rest (parse_method_line r first) [] false
      show ∃ hext, (parseLoop rest (parse_method_line r first) [] false).1.headers = r.headers ++ hext
      rw [hshape]
      show ∃ hext, (parse_method_line r first).headers ++ ext = r.headers ++ hext
      rw [parse_method_line_headers]
      exact ⟨ext, rfl⟩
  · cases hrl : rustLines input with
    | nil =>
      rw [parse_request_nil_eq r input hrl]
      exact ⟨[], by simp⟩
    | cons first rest =>
      rw [parse_request_cons_eq r input first rest hrl]
      obtain ⟨ext, hshape⟩ := parseLoop_fst_shape rest (parse_method_line r first) [] false
      obtain ⟨e, he⟩ := parse_method_line_query_ext r first
      show ∃ qext, (parseLoop rest (parse_method_line r first) [] false).1.query = r.query ++ qext
      rw [hshape]
      show ∃ qext, (parse_method_line r first).query = r.query ++ qext
      exact ⟨e, he⟩
  · intro b
    cases hrl : rustLines input with
    | nil =>
      rw [parse_request_nil_eq _ input hrl, parse_request_nil_eq r input hrl]
    | cons first rest =>
      rw [parse_request_cons_eq _ input first rest hrl,
        parse_request_cons_eq r input first rest hrl]
      show joinSep strCRLF (parseLoop rest (parse_method_line { r with body := b } first) [] false).2 =
        joinSep strCRLF (parseLoop rest (parse_method_line r first) [] false).2
      rw [parseLoop_snd, parseLoop_snd, List.nil_append, List.nil_append,
        parse_method_line_method_body]

/-- Witness for the amended C10: body overwrite at a concrete request. -/
theorem C10_parse_accumulates_witness :
    (parse_from_str { Request.new with body := str "old" } (str "GET / HTTP/1.1")).body =
      (parse_from_str Request.new (str "GET / HTTP/1.1")).body :=
  (C10_parse_accumulates Request.new (str "GET / HTTP/1.1")).2.2.1 (str "old")

end HP
